import Mathlib

/-!
Verification of `game_agent.py` (Isolation game-playing agent).

Shallow embedding conventions:
* A `Move` is a pair of integers; `(-1, -1)` is the no-move sentinel.
* Players are booleans: `true` is the agent itself (`self` in the source),
  `false` is the opponent (`game.get_opponent(self)`).
* Python floats are modelled as `WithBot (WithTop ℚ)`: `⊥` is `float('-Inf')`,
  `⊤` is `float('Inf')`, and finite scores are rationals.
* The board (`isolation.Board`) is an external collaborator; it is modelled by
  the abstract `Game` structure listing exactly the interface the agent uses.
* The recursive helpers are defined with an explicit fuel parameter; `none`
  means the recursion did not terminate within the given fuel.  For the uses
  the agent makes (`n_depth` starts at 1, `1 ≤ depth`, and `n_depth` is
  incremented exactly once per ply), fuel `depth` is always sufficient, which
  is proved below.
-/

set_option linter.unusedVariables false

abbrev Move : Type := Int × Int

/-- Score values: Python floats with the two infinities used by the search. -/
abbrev SVal : Type := WithBot (WithTop ℚ)

/-- A finite score (an ordinary Python float / rational). -/
def qv (q : ℚ) : SVal := ((q : WithTop ℚ) : SVal)

/-- The interface of `isolation.Board` consumed by `game_agent.py`
(an external collaborator, per the spec's Game State interface).
A player is identified by a `Bool`: `true` = the agent (`self`). -/
structure Game (σ : Type) where
  /-- `game.get_legal_moves(player)` -/
  legalMoves : σ → Bool → List Move
  /-- `game.forecast_move(m)`: pure projection to the state after the move -/
  forecast : σ → Move → σ
  /-- `game.is_winner(player)` -/
  isWinner : σ → Bool → Bool
  /-- `game.is_loser(player)` -/
  isLoser : σ → Bool → Bool
  /-- whether `game.active_player` is the agent itself -/
  activeIsSelf : σ → Bool
  /-- `game.get_player_location(player)` -/
  playerLoc : σ → Bool → Move
  /-- `game.get_blank_spaces()` -/
  blankSpaces : σ → List Move

/-- Modelled from the spec: `isolation.Board.get_move` is called by the
time-pressure fallback (`game_agent.py` lines 127 and 265) but `isolation.py`
is not under `src/`; per the spec the fallback returns "a move drawn from
self's legal moves".  We model it as the first of the supplied legal moves,
with the no-move sentinel on an empty list. -/
def board_get_move (legal : List Move) : Move := legal.headD (-1, -1)

/-- `manhattan_distance` (lines 10-11). -/
def manhattan_distance (move1 move2 : Move) : Int :=
  |move1.1 - move2.1| + |move1.2 - move2.2|

/-- `custom_score` (lines 15-55), Evaluation Function III:
`(len(player1_moves) - len(player2_moves)) / (1 + dist + len(blank))`. -/
def custom_score (G : Game σ) (game : σ) (player : Bool) : ℚ :=
  let player1_moves := G.legalMoves game player
  let player2_moves := G.legalMoves game (!player)
  let p1_location := G.playerLoc game player
  let p2_location := G.playerLoc game (!player)
  let dist := manhattan_distance p1_location p2_location
  let blank := G.blankSpaces game
  ((player1_moves.length : ℚ) - (player2_moves.length : ℚ)) /
    (1 + (dist : ℚ) + (blank.length : ℚ))

/-- The loop of `min_value` (lines 160-163): fold `min` over the forecasts of
the enumerated moves, calling the `max_value` of the child states.
`child` is the one-ply-deeper evaluation. -/
def min_valueGo (G : Game σ) (child : σ → Option SVal) (st : σ) :
    List Move → SVal → Option SVal
  | [], best_score => some best_score
  | m :: ms, best_score =>
    match child (G.forecast st m) with
    | none => none
    | some v => min_valueGo G child st ms (min best_score v)

/-- The loop of `max_value` (lines 186-188). -/
def max_valueGo (G : Game σ) (child : σ → Option SVal) (st : σ) :
    List Move → SVal → Option SVal
  | [], best_score => some best_score
  | m :: ms, best_score =>
    match child (G.forecast st m) with
    | none => none
    | some v => max_valueGo G child st ms (max best_score v)

/-- The mutually recursive helpers `min_value` / `max_value` of
`CustomPlayer.minimax` (lines 138-190), indexed by fuel so that the pair is
structurally recursive.  Component `.1` is `min_value`, `.2` is `max_value`.
Arguments after the state: `n_depth`, `max_depth`, `maximizing_player`. -/
def mm_values (G : Game σ) (ev : σ → ℚ) :
    Nat → (σ → Nat → Nat → Bool → Option SVal) × (σ → Nat → Nat → Bool → Option SVal)
  | 0 => (fun _ _ _ _ => none, fun _ _ _ _ => none)
  | fuel + 1 =>
    ( fun st n_depth max_depth maximizing_player =>
        -- min_value, lines 138-164
        if n_depth = max_depth ∨ G.isWinner st true ∨ G.isLoser st true then
          some (qv (ev st))
        else
          let n_moves := if maximizing_player then G.legalMoves st false
                         else G.legalMoves st true
          min_valueGo G
            (fun st' => (mm_values G ev fuel).2 st' (n_depth + 1) max_depth maximizing_player)
            st n_moves ⊤,
      fun st n_depth max_depth maximizing_player =>
        -- max_value, lines 166-190
        if n_depth = max_depth ∨ G.isWinner st true ∨ G.isLoser st true then
          some (qv (ev st))
        else
          let n_moves := if maximizing_player then G.legalMoves st true
                         else G.legalMoves st false
          max_valueGo G
            (fun st' => (mm_values G ev fuel).1 st' (n_depth + 1) max_depth maximizing_player)
            st n_moves ⊥ )

/-- `min_value` (lines 138-164). -/
def min_value (G : Game σ) (ev : σ → ℚ) (fuel : Nat) (st : σ)
    (n_depth max_depth : Nat) (maximizing_player : Bool) : Option SVal :=
  (mm_values G ev fuel).1 st n_depth max_depth maximizing_player

/-- `max_value` (lines 166-190). -/
def max_value (G : Game σ) (ev : σ → ℚ) (fuel : Nat) (st : σ)
    (n_depth max_depth : Nat) (maximizing_player : Bool) : Option SVal :=
  (mm_values G ev fuel).2 st n_depth max_depth maximizing_player

/-- The top-level loop of `CustomPlayer.minimax` (lines 205-220).  The
accumulator is `(best_score, best_move)`. -/
def minimaxGo (G : Game σ) (ev : σ → ℚ) (fuel : Nat) (game : σ) (depth : Nat)
    (maximizing_player : Bool) : List Move → SVal × Move → Option (SVal × Move)
  | [], acc => some acc
  | m :: ms, acc =>
    let next_game := G.forecast game m
    if maximizing_player then
      match min_value G ev fuel next_game 1 depth maximizing_player with
      | none => none
      | some score =>
        let acc' := if acc.1 < score then (score, m) else acc
        minimaxGo G ev fuel game depth maximizing_player ms acc'
    else
      match max_value G ev fuel next_game 1 depth maximizing_player with
      | none => none
      | some score =>
        let acc' := if score < acc.1 then (score, m) else acc
        minimaxGo G ev fuel game depth maximizing_player ms acc'

/-- The body of the `try:` block of `CustomPlayer.minimax` (lines 192-222):
root move enumeration over `game.get_legal_moves(game.active_player)`
(line 194), initial `(best_score, best_move)`, and the selection loop. -/
def minimaxSearch (G : Game σ) (ev : σ → ℚ) (game : σ) (depth : Nat)
    (maximizing_player : Bool) : Option (SVal × Move) :=
  let num_legal_moves := G.legalMoves game (G.activeIsSelf game)
  let best_score : SVal := if maximizing_player then ⊥ else ⊤
  minimaxGo G ev depth game depth maximizing_player num_legal_moves (best_score, (-1, -1))

/-- `CustomPlayer.minimax` (lines 98-226).  `time_left` is the value the
clock reports at the entry check (line 126; the clock is consulted nowhere
else inside the search).  `none` means the recursion did not terminate
within `depth` plies (possible only for `depth = 0`, where the Python code
recurses past `max_depth`). -/
def minimax (G : Game σ) (ev : σ → ℚ) (time_left TIMER_THRESHOLD : ℚ)
    (game : σ) (depth : Nat) (maximizing_player : Bool := true) :
    Option (SVal × Move) :=
  if time_left < TIMER_THRESHOLD then
    -- line 126-127: fallback pair (score of the current state, quick move)
    some (qv (ev game), board_get_move (G.legalMoves game true))
  else
    minimaxSearch G ev game depth maximizing_player

/-- The loop of `min_value_ab` (lines 300-317).  `child` receives the current
`beta` (the `alpha` bound is fixed inside a `min_value_ab` activation, `beta`
is tightened as the loop runs). -/
def min_value_abGo (G : Game σ) (child : σ → SVal → Option SVal) (st : σ) :
    List Move → SVal → SVal → SVal → Option SVal
  | [], score, _, _ => some score
  | m :: ms, score, alpha, beta =>
    match child (G.forecast st m) beta with
    | none => none
    | some v =>
      let score' := min score v
      if score' ≤ alpha then some score'        -- line 313-314: alpha cutoff
      else min_value_abGo G child st ms score' alpha (min beta score')  -- line 317

/-- The loop of `max_value_ab` (lines 340-357). -/
def max_value_abGo (G : Game σ) (child : σ → SVal → Option SVal) (st : σ) :
    List Move → SVal → SVal → SVal → Option SVal
  | [], score, _, _ => some score
  | m :: ms, score, alpha, beta =>
    match child (G.forecast st m) alpha with
    | none => none
    | some v =>
      let score' := max score v
      if beta ≤ score' then some score'         -- line 353-354: beta cutoff
      else max_value_abGo G child st ms score' (max alpha score') beta  -- line 357

/-- The mutually recursive helpers `min_value_ab` / `max_value_ab` of
`CustomPlayer.alphabeta` (lines 281-359), fuel-indexed as for `mm_values`.
Component `.1` is `min_value_ab`, `.2` is `max_value_ab`.  Arguments after
the state: `n_depth`, `max_depth`, `alpha`, `beta`, `maximizing_player`. -/
def ab_values (G : Game σ) (ev : σ → ℚ) :
    Nat → (σ → Nat → Nat → SVal → SVal → Bool → Option SVal) ×
          (σ → Nat → Nat → SVal → SVal → Bool → Option SVal)
  | 0 => (fun _ _ _ _ _ _ => none, fun _ _ _ _ _ _ => none)
  | fuel + 1 =>
    ( fun st n_depth max_depth alpha beta maximizing_player =>
        -- min_value_ab, lines 281-320
        if n_depth = max_depth ∨ G.isWinner st true ∨ G.isLoser st true then
          some (qv (ev st))
        else
          let n_moves := if maximizing_player then G.legalMoves st false
                         else G.legalMoves st true
          min_value_abGo G
            (fun st' beta' =>
              (ab_values G ev fuel).2 st' (n_depth + 1) max_depth alpha beta' maximizing_player)
            st n_moves ⊤ alpha beta,
      fun st n_depth max_depth alpha beta maximizing_player =>
        -- max_value_ab, lines 322-359
        if n_depth = max_depth ∨ G.isWinner st true ∨ G.isLoser st true then
          some (qv (ev st))
        else
          let n_moves := if maximizing_player then G.legalMoves st true
                         else G.legalMoves st false
          max_value_abGo G
            (fun st' alpha' =>
              (ab_values G ev fuel).1 st' (n_depth + 1) max_depth alpha' beta maximizing_player)
            st n_moves ⊥ alpha beta )

/-- `min_value_ab` (lines 281-320). -/
def min_value_ab (G : Game σ) (ev : σ → ℚ) (fuel : Nat) (st : σ)
    (n_depth max_depth : Nat) (alpha beta : SVal) (maximizing_player : Bool) :
    Option SVal :=
  (ab_values G ev fuel).1 st n_depth max_depth alpha beta maximizing_player

/-- `max_value_ab` (lines 322-359). -/
def max_value_ab (G : Game σ) (ev : σ → ℚ) (fuel : Nat) (st : σ)
    (n_depth max_depth : Nat) (alpha beta : SVal) (maximizing_player : Bool) :
    Option SVal :=
  (ab_values G ev fuel).2 st n_depth max_depth alpha beta maximizing_player

/-- The top-level loop of `CustomPlayer.alphabeta` (lines 376-407).  The
accumulator is `(best_score, best_move)`; `alpha`, `beta` are the root's
running bounds.  Note line 407 of the source: in the minimizing branch the
code sets `beta = min(alpha, best_score)` (not `min(beta, best_score)`). -/
def alphabetaGo (G : Game σ) (ev : σ → ℚ) (fuel : Nat) (game : σ) (depth : Nat)
    (maximizing_player : Bool) :
    List Move → SVal × Move → SVal → SVal → Option (SVal × Move)
  | [], acc, _, _ => some acc
  | m :: ms, acc, alpha, beta =>
    let next_game := G.forecast game m
    if maximizing_player then
      match min_value_ab G ev fuel next_game 1 depth alpha beta maximizing_player with
      | none => none
      | some score =>
        let acc' := if acc.1 < score then (score, m) else acc
        if beta ≤ acc'.1 then some acc'          -- lines 390-391: break
        else alphabetaGo G ev fuel game depth maximizing_player ms acc'
               (max alpha acc'.1) beta           -- line 393
    else
      match max_value_ab G ev fuel next_game 1 depth alpha beta maximizing_player with
      | none => none
      | some score =>
        let acc' := if score < acc.1 then (score, m) else acc
        if acc'.1 ≤ alpha then some acc'         -- lines 404-405: break
        else alphabetaGo G ev fuel game depth maximizing_player ms acc'
               alpha (min alpha acc'.1)          -- line 407: min(alpha, best_score)

/-- The body of the `try:` block of `CustomPlayer.alphabeta` (lines 362-409):
root move enumeration over `game.get_legal_moves(self)` (line 364), initial
`best_score = alpha` (maximizing) or `beta` (minimizing), and the loop. -/
def alphabetaSearch (G : Game σ) (ev : σ → ℚ) (game : σ) (depth : Nat)
    (alpha beta : SVal) (maximizing_player : Bool) : Option (SVal × Move) :=
  let num_legal_moves := G.legalMoves game true
  let best_score : SVal := if maximizing_player then alpha else beta
  alphabetaGo G ev depth game depth maximizing_player num_legal_moves
    (best_score, (-1, -1)) alpha beta

/-- `CustomPlayer.alphabeta` (lines 230-412); defaults `alpha = -∞`,
`beta = +∞`, `maximizing_player = True` as in the source. -/
def alphabeta (G : Game σ) (ev : σ → ℚ) (time_left TIMER_THRESHOLD : ℚ)
    (game : σ) (depth : Nat) (alpha : SVal := ⊥) (beta : SVal := ⊤)
    (maximizing_player : Bool := true) : Option (SVal × Move) :=
  if time_left < TIMER_THRESHOLD then
    -- line 264-265: fallback pair (score of the current state, quick move)
    some (qv (ev game), board_get_move (G.legalMoves game true))
  else
    alphabetaSearch G ev game depth alpha beta maximizing_player

/-- The possible outcomes of a call to `CustomPlayer.get_move`. -/
inductive PyOutcome where
  /-- the call has not returned within the modelled fuel (the `while` loop
  at line 463/472 is still running) -/
  | outOfFuel : PyOutcome
  /-- an uncaught Python error: `best_move` is read unbound at line 482
  when `self.method` is neither `"minimax"` nor `"alphabeta"` -/
  | uncaught : PyOutcome
  /-- the call returned; `none` is Python's implicit `None` (the final
  `if`/`elif` of lines 482-485 falling through) -/
  | ret : Option Move → PyOutcome
deriving DecidableEq

/-- The `while self.time_left() >= 600:` loop of `get_move`
(lines 457-475).  `clock k` is the value returned by the `k`-th call to
`self.time_left()` made after entering `get_move`'s `try:` block; `idx` is
the index of the next call.  Each iteration reads the clock once for the
guard, and — when `self.iterative` holds — once more inside the
`minimax`/`alphabeta` entry check (lines 126/264).  `methodMM` selects the
`"minimax"` branch (lines 458-466) over the `"alphabeta"` one (467-475).
`none` means the loop is still running after `fuel` iterations: with
`iterative = False` the loop body does nothing, so the loop only ever exits
when the clock drops below 600. -/
def driverLoop (G : Game σ) (ev : σ → ℚ) (clock : Nat → ℚ)
    (TIMER_THRESHOLD : ℚ) (iterative : Bool) (methodMM : Bool) (game : σ) :
    Nat → Nat → Nat → SVal × Move → Option (SVal × Move)
  | 0, _, _, _ => none
  | fuel + 1, d, idx, best =>
    if 600 ≤ clock idx then
      if iterative then
        match (if methodMM then minimax G ev (clock (idx + 1)) TIMER_THRESHOLD game (d + 1) true
               else alphabeta G ev (clock (idx + 1)) TIMER_THRESHOLD game (d + 1) ⊥ ⊤ true) with
        | none => none
        | some best' => driverLoop G ev clock TIMER_THRESHOLD iterative methodMM game fuel
            (d + 1) (idx + 2) best'
      else driverLoop G ev clock TIMER_THRESHOLD iterative methodMM game fuel d (idx + 1) best
    else some best

/-- The final `if best_move in legal_moves: ... elif not legal_moves: ...`
of `get_move` (lines 482-485); falling through both branches is Python's
implicit `None`. -/
def get_moveReturn (best_move : Move) (legal_moves : List Move) : Option Move :=
  if best_move ∈ legal_moves then some best_move
  else if legal_moves = [] then some (-1, -1)
  else none

/-- `CustomPlayer.get_move` (lines 414-485).  Configuration parameters
mirror `CustomPlayer.__init__` (lines 87-94): `search_depth`, `iterative`,
`method`, `TIMER_THRESHOLD` (note the body of `get_move` never reads
`search_depth`).  `clock k` is the `k`-th reading of `time_left`; reading 0
is consumed by the entry check of the first fixed `minimax(game, 1)` /
`alphabeta(game, 1)` call (lines 459/468).  Nothing in the modelled code can
raise `TimeoutError`, so the `except TimeoutError:` handler of line 478 is
dead.  An unrecognized `method` leaves `best_move` unbound, which raises at
line 482 (`uncaught`). -/
def get_move (G : Game σ) (ev : σ → ℚ) (search_depth : Nat) (iterative : Bool)
    (method : String) (TIMER_THRESHOLD : ℚ) (fuel : Nat) (game : σ)
    (legal_moves : List Move) (clock : Nat → ℚ) : PyOutcome :=
  if method = "minimax" then
    match minimax G ev (clock 0) TIMER_THRESHOLD game 1 true with
    | none => .outOfFuel
    | some best =>
      match driverLoop G ev clock TIMER_THRESHOLD iterative true game fuel 1 1 best with
      | none => .outOfFuel
      | some (_, best_move) => .ret (get_moveReturn best_move legal_moves)
  else if method = "alphabeta" then
    match alphabeta G ev (clock 0) TIMER_THRESHOLD game 1 ⊥ ⊤ true with
    | none => .outOfFuel
    | some best =>
      match driverLoop G ev clock TIMER_THRESHOLD iterative false game fuel 1 1 best with
      | none => .outOfFuel
      | some (_, best_move) => .ret (get_moveReturn best_move legal_moves)
  else .uncaught

/-! ### Behavioral assumptions on the external board

Modelled from the spec: `isolation.py` is not under `src/`.  The spec's §1
("players alternately move on a grid, …, losing when no legal move remains")
and the Game State interface (§6) justify the following facts about the
external board, used only where a claim needs "normal operation". -/

/-- Modelled from the spec: a board is lawful when the player to move loses
exactly by running out of moves, and `forecast_move` alternates the active
player.  `self_stuck`: if the agent is the active player and has no legal
moves, `is_loser(self)` holds; `opp_stuck`: if the opponent is active and has
no legal moves, `is_winner(self)` holds; `alternate`: projecting a move flips
the active player. -/
structure LawfulGame (G : Game σ) : Prop where
  self_stuck : ∀ st, G.activeIsSelf st = true → G.legalMoves st true = [] →
    G.isLoser st true = true
  opp_stuck : ∀ st, G.activeIsSelf st = false → G.legalMoves st false = [] →
    G.isWinner st true = true
  alternate : ∀ st m, G.activeIsSelf (G.forecast st m) = !(G.activeIsSelf st)

/-! ### Forecast-call counters

For each search function, a mirror that returns the number of
`game.forecast_move` calls the function performs (one per loop iteration at
lines 161/187/206/302/341/377, plus the calls of the recursive children).
`none` again means out of fuel. -/

/-- Forecast-call count of the loop of `min_value`/`max_value` (no cutoffs,
so the two loops count identically). -/
def mmGoCalls (G : Game σ) (childC : σ → Option Nat) (st : σ) :
    List Move → Nat → Option Nat
  | [], c => some c
  | m :: ms, c =>
    match childC (G.forecast st m) with
    | none => none
    | some k => mmGoCalls G childC st ms (c + 1 + k)

/-- Forecast-call counts of `min_value` (`.1`) and `max_value` (`.2`). -/
def mm_calls (G : Game σ) (ev : σ → ℚ) :
    Nat → (σ → Nat → Nat → Bool → Option Nat) × (σ → Nat → Nat → Bool → Option Nat)
  | 0 => (fun _ _ _ _ => none, fun _ _ _ _ => none)
  | fuel + 1 =>
    ( fun st n_depth max_depth maximizing_player =>
        if n_depth = max_depth ∨ G.isWinner st true ∨ G.isLoser st true then some 0
        else
          let n_moves := if maximizing_player then G.legalMoves st false
                         else G.legalMoves st true
          mmGoCalls G
            (fun st' => (mm_calls G ev fuel).2 st' (n_depth + 1) max_depth maximizing_player)
            st n_moves 0,
      fun st n_depth max_depth maximizing_player =>
        if n_depth = max_depth ∨ G.isWinner st true ∨ G.isLoser st true then some 0
        else
          let n_moves := if maximizing_player then G.legalMoves st true
                         else G.legalMoves st false
          mmGoCalls G
            (fun st' => (mm_calls G ev fuel).1 st' (n_depth + 1) max_depth maximizing_player)
            st n_moves 0 )

/-- Forecast-call count of `min_value` (lines 138-164). -/
def min_valueCalls (G : Game σ) (ev : σ → ℚ) (fuel : Nat) (st : σ)
    (n_depth max_depth : Nat) (maximizing_player : Bool) : Option Nat :=
  (mm_calls G ev fuel).1 st n_depth max_depth maximizing_player

/-- Forecast-call count of `max_value` (lines 166-190). -/
def max_valueCalls (G : Game σ) (ev : σ → ℚ) (fuel : Nat) (st : σ)
    (n_depth max_depth : Nat) (maximizing_player : Bool) : Option Nat :=
  (mm_calls G ev fuel).2 st n_depth max_depth maximizing_player

/-- Forecast-call count of the loop of `min_value_ab`: the cutoff decision
needs the child values, so the value function is threaded alongside. -/
def min_abGoCalls (G : Game σ) (childV : σ → SVal → Option SVal)
    (childC : σ → SVal → Option Nat) (st : σ) :
    List Move → Nat → SVal → SVal → SVal → Option Nat
  | [], c, _, _, _ => some c
  | m :: ms, c, score, alpha, beta =>
    match childV (G.forecast st m) beta, childC (G.forecast st m) beta with
    | some v, some k =>
      let score' := min score v
      if score' ≤ alpha then some (c + 1 + k)
      else min_abGoCalls G childV childC st ms (c + 1 + k) score' alpha (min beta score')
    | _, _ => none

/-- Forecast-call count of the loop of `max_value_ab`. -/
def max_abGoCalls (G : Game σ) (childV : σ → SVal → Option SVal)
    (childC : σ → SVal → Option Nat) (st : σ) :
    List Move → Nat → SVal → SVal → SVal → Option Nat
  | [], c, _, _, _ => some c
  | m :: ms, c, score, alpha, beta =>
    match childV (G.forecast st m) alpha, childC (G.forecast st m) alpha with
    | some v, some k =>
      let score' := max score v
      if beta ≤ score' then some (c + 1 + k)
      else max_abGoCalls G childV childC st ms (c + 1 + k) score' (max alpha score') beta
    | _, _ => none

/-- Forecast-call counts of `min_value_ab` (`.1`) and `max_value_ab` (`.2`). -/
def ab_calls (G : Game σ) (ev : σ → ℚ) :
    Nat → (σ → Nat → Nat → SVal → SVal → Bool → Option Nat) ×
          (σ → Nat → Nat → SVal → SVal → Bool → Option Nat)
  | 0 => (fun _ _ _ _ _ _ => none, fun _ _ _ _ _ _ => none)
  | fuel + 1 =>
    ( fun st n_depth max_depth alpha beta maximizing_player =>
        if n_depth = max_depth ∨ G.isWinner st true ∨ G.isLoser st true then some 0
        else
          let n_moves := if maximizing_player then G.legalMoves st false
                         else G.legalMoves st true
          min_abGoCalls G
            (fun st' beta' =>
              (ab_values G ev fuel).2 st' (n_depth + 1) max_depth alpha beta' maximizing_player)
            (fun st' beta' =>
              (ab_calls G ev fuel).2 st' (n_depth + 1) max_depth alpha beta' maximizing_player)
            st n_moves 0 ⊤ alpha beta,
      fun st n_depth max_depth alpha beta maximizing_player =>
        if n_depth = max_depth ∨ G.isWinner st true ∨ G.isLoser st true then some 0
        else
          let n_moves := if maximizing_player then G.legalMoves st true
                         else G.legalMoves st false
          max_abGoCalls G
            (fun st' alpha' =>
              (ab_values G ev fuel).1 st' (n_depth + 1) max_depth alpha' beta maximizing_player)
            (fun st' alpha' =>
              (ab_calls G ev fuel).1 st' (n_depth + 1) max_depth alpha' beta maximizing_player)
            st n_moves 0 ⊥ alpha beta )

/-- Forecast-call count of `min_value_ab` (lines 281-320). -/
def min_value_abCalls (G : Game σ) (ev : σ → ℚ) (fuel : Nat) (st : σ)
    (n_depth max_depth : Nat) (alpha beta : SVal) (maximizing_player : Bool) :
    Option Nat :=
  (ab_calls G ev fuel).1 st n_depth max_depth alpha beta maximizing_player

/-- Forecast-call count of `max_value_ab` (lines 322-359). -/
def max_value_abCalls (G : Game σ) (ev : σ → ℚ) (fuel : Nat) (st : σ)
    (n_depth max_depth : Nat) (alpha beta : SVal) (maximizing_player : Bool) :
    Option Nat :=
  (ab_calls G ev fuel).2 st n_depth max_depth alpha beta maximizing_player

/-- Forecast-call count of the root loop of `minimax` (lines 205-220). -/
def minimaxGoCalls (G : Game σ) (ev : σ → ℚ) (fuel : Nat) (game : σ)
    (depth : Nat) (maximizing_player : Bool) : List Move → Nat → Option Nat
  | [], c => some c
  | m :: ms, c =>
    match (if maximizing_player then min_valueCalls G ev fuel (G.forecast game m) 1 depth maximizing_player
           else max_valueCalls G ev fuel (G.forecast game m) 1 depth maximizing_player) with
    | none => none
    | some k => minimaxGoCalls G ev fuel game depth maximizing_player ms (c + 1 + k)

/-- Forecast-call count of `CustomPlayer.minimax` (lines 98-226). -/
def minimaxCalls (G : Game σ) (ev : σ → ℚ) (time_left TIMER_THRESHOLD : ℚ)
    (game : σ) (depth : Nat) (maximizing_player : Bool := true) : Option Nat :=
  if time_left < TIMER_THRESHOLD then some 0
  else minimaxGoCalls G ev depth game depth maximizing_player
    (G.legalMoves game (G.activeIsSelf game)) 0

/-- Forecast-call count of the root loop of `alphabeta` (lines 376-407);
the values are threaded to decide the `break`s. -/
def alphabetaGoCalls (G : Game σ) (ev : σ → ℚ) (fuel : Nat) (game : σ)
    (depth : Nat) (maximizing_player : Bool) :
    List Move → Nat → SVal × Move → SVal → SVal → Option Nat
  | [], c, _, _, _ => some c
  | m :: ms, c, acc, alpha, beta =>
    let next_game := G.forecast game m
    if maximizing_player then
      match min_value_ab G ev fuel next_game 1 depth alpha beta maximizing_player,
            min_value_abCalls G ev fuel next_game 1 depth alpha beta maximizing_player with
      | some score, some k =>
        let acc' := if acc.1 < score then (score, m) else acc
        if beta ≤ acc'.1 then some (c + 1 + k)
        else alphabetaGoCalls G ev fuel game depth maximizing_player ms (c + 1 + k) acc'
               (max alpha acc'.1) beta
      | _, _ => none
    else
      match max_value_ab G ev fuel next_game 1 depth alpha beta maximizing_player,
            max_value_abCalls G ev fuel next_game 1 depth alpha beta maximizing_player with
      | some score, some k =>
        let acc' := if score < acc.1 then (score, m) else acc
        if acc'.1 ≤ alpha then some (c + 1 + k)
        else alphabetaGoCalls G ev fuel game depth maximizing_player ms (c + 1 + k) acc'
               alpha (min alpha acc'.1)
      | _, _ => none

/-- Forecast-call count of `CustomPlayer.alphabeta` (lines 230-412). -/
def alphabetaCalls (G : Game σ) (ev : σ → ℚ) (time_left TIMER_THRESHOLD : ℚ)
    (game : σ) (depth : Nat) (alpha : SVal := ⊥) (beta : SVal := ⊤)
    (maximizing_player : Bool := true) : Option Nat :=
  if time_left < TIMER_THRESHOLD then some 0
  else
    let best_score : SVal := if maximizing_player then alpha else beta
    alphabetaGoCalls G ev depth game depth maximizing_player
      (G.legalMoves game true) 0 (best_score, (-1, -1)) alpha beta

/-! ### Exception-instrumented search (for the timeout-recovery claim)

`game_agent.py` itself never raises; the only code that can raise a timeout
during the recursion is an external collaborator (per spec §7, the Evaluation
Service / Game State used as oracles).  We instrument the evaluation function
with the two relevant Python exception classes: the module's own `Timeout`
(lines 4-6, a direct subclass of `Exception`) and the builtin `TimeoutError`.
The recursive helpers contain no `try:`, so any exception propagates out of
them; the root `try:`/`except TimeoutError:` (lines 192/224, 362/411)
catches `TimeoutError` — and only `TimeoutError` — returning the current
`(best_score, best_move)`. -/

/-- The exception classes relevant to the search. -/
inductive ExcKind where
  /-- `game_agent.Timeout` (lines 4-6): subclasses `Exception`, not
  `TimeoutError` -/
  | timeout : ExcKind
  /-- Python's builtin `TimeoutError`, the class named by the `except`
  clauses at lines 224, 411 and 478 -/
  | timeoutError : ExcKind
deriving DecidableEq

/-- The loop of `min_value` when the evaluation oracle may raise:
exceptions propagate (the helpers have no handler). -/
def min_valueEGo (G : Game σ) (child : σ → Option (Except ExcKind SVal)) (st : σ) :
    List Move → SVal → Option (Except ExcKind SVal)
  | [], best_score => some (.ok best_score)
  | m :: ms, best_score =>
    match child (G.forecast st m) with
    | none => none
    | some (.error e) => some (.error e)
    | some (.ok v) => min_valueEGo G child st ms (min best_score v)

/-- The loop of `max_value` when the evaluation oracle may raise. -/
def max_valueEGo (G : Game σ) (child : σ → Option (Except ExcKind SVal)) (st : σ) :
    List Move → SVal → Option (Except ExcKind SVal)
  | [], best_score => some (.ok best_score)
  | m :: ms, best_score =>
    match child (G.forecast st m) with
    | none => none
    | some (.error e) => some (.error e)
    | some (.ok v) => max_valueEGo G child st ms (max best_score v)

/-- `min_value` (`.1`) / `max_value` (`.2`) with a raising evaluation
oracle `evE`. -/
def mmE_values (G : Game σ) (evE : σ → Except ExcKind ℚ) :
    Nat → (σ → Nat → Nat → Bool → Option (Except ExcKind SVal)) ×
          (σ → Nat → Nat → Bool → Option (Except ExcKind SVal))
  | 0 => (fun _ _ _ _ => none, fun _ _ _ _ => none)
  | fuel + 1 =>
    ( fun st n_depth max_depth maximizing_player =>
        if n_depth = max_depth ∨ G.isWinner st true ∨ G.isLoser st true then
          match evE st with
          | .error e => some (.error e)
          | .ok q => some (.ok (qv q))
        else
          let n_moves := if maximizing_player then G.legalMoves st false
                         else G.legalMoves st true
          min_valueEGo G
            (fun st' => (mmE_values G evE fuel).2 st' (n_depth + 1) max_depth maximizing_player)
            st n_moves ⊤,
      fun st n_depth max_depth maximizing_player =>
        if n_depth = max_depth ∨ G.isWinner st true ∨ G.isLoser st true then
          match evE st with
          | .error e => some (.error e)
          | .ok q => some (.ok (qv q))
        else
          let n_moves := if maximizing_player then G.legalMoves st true
                         else G.legalMoves st false
          max_valueEGo G
            (fun st' => (mmE_values G evE fuel).1 st' (n_depth + 1) max_depth maximizing_player)
            st n_moves ⊥ )

/-- `min_value` with a raising evaluation oracle. -/
def min_valueE (G : Game σ) (evE : σ → Except ExcKind ℚ) (fuel : Nat) (st : σ)
    (n_depth max_depth : Nat) (maximizing_player : Bool) :
    Option (Except ExcKind SVal) :=
  (mmE_values G evE fuel).1 st n_depth max_depth maximizing_player

/-- `max_value` with a raising evaluation oracle. -/
def max_valueE (G : Game σ) (evE : σ → Except ExcKind ℚ) (fuel : Nat) (st : σ)
    (n_depth max_depth : Nat) (maximizing_player : Bool) :
    Option (Except ExcKind SVal) :=
  (mmE_values G evE fuel).2 st n_depth max_depth maximizing_player

/-- The root loop of `minimax` under the `try:` of line 192 with a raising
oracle.  A `TimeoutError` raised by a child is caught by the `except
TimeoutError:` of line 224, which returns the current `(best_score,
best_move)`; the module's own `Timeout` is not a `TimeoutError`, so it
propagates out of `minimax` uncaught. -/
def minimaxEGo (G : Game σ) (evE : σ → Except ExcKind ℚ) (fuel : Nat) (game : σ)
    (depth : Nat) (maximizing_player : Bool) :
    List Move → SVal × Move → Option (Except ExcKind (SVal × Move))
  | [], acc => some (.ok acc)
  | m :: ms, acc =>
    let next_game := G.forecast game m
    match (if maximizing_player then min_valueE G evE fuel next_game 1 depth maximizing_player
           else max_valueE G evE fuel next_game 1 depth maximizing_player) with
    | none => none
    | some (.error .timeoutError) => some (.ok acc)       -- lines 224-226
    | some (.error .timeout) => some (.error .timeout)    -- uncaught
    | some (.ok score) =>
      let acc' := if maximizing_player then (if acc.1 < score then (score, m) else acc)
                  else (if score < acc.1 then (score, m) else acc)
      minimaxEGo G evE fuel game depth maximizing_player ms acc'

/-- `CustomPlayer.minimax` with a raising evaluation oracle.  Note the entry
fallback (lines 126-127) evaluates `self.score(game, self)` *outside* the
`try:`, so an exception there always propagates. -/
def minimaxE (G : Game σ) (evE : σ → Except ExcKind ℚ)
    (time_left TIMER_THRESHOLD : ℚ) (game : σ) (depth : Nat)
    (maximizing_player : Bool := true) : Option (Except ExcKind (SVal × Move)) :=
  if time_left < TIMER_THRESHOLD then
    match evE game with
    | .error e => some (.error e)
    | .ok q => some (.ok (qv q, board_get_move (G.legalMoves game true)))
  else
    let num_legal_moves := G.legalMoves game (G.activeIsSelf game)
    let best_score : SVal := if maximizing_player then ⊥ else ⊤
    minimaxEGo G evE depth game depth maximizing_player num_legal_moves
      (best_score, (-1, -1))

/-- The loop of `min_value_ab` with a raising oracle. -/
def min_value_abEGo (G : Game σ) (child : σ → SVal → Option (Except ExcKind SVal))
    (st : σ) : List Move → SVal → SVal → SVal → Option (Except ExcKind SVal)
  | [], score, _, _ => some (.ok score)
  | m :: ms, score, alpha, beta =>
    match child (G.forecast st m) beta with
    | none => none
    | some (.error e) => some (.error e)
    | some (.ok v) =>
      let score' := min score v
      if score' ≤ alpha then some (.ok score')
      else min_value_abEGo G child st ms score' alpha (min beta score')

/-- The loop of `max_value_ab` with a raising oracle. -/
def max_value_abEGo (G : Game σ) (child : σ → SVal → Option (Except ExcKind SVal))
    (st : σ) : List Move → SVal → SVal → SVal → Option (Except ExcKind SVal)
  | [], score, _, _ => some (.ok score)
  | m :: ms, score, alpha, beta =>
    match child (G.forecast st m) alpha with
    | none => none
    | some (.error e) => some (.error e)
    | some (.ok v) =>
      let score' := max score v
      if beta ≤ score' then some (.ok score')
      else max_value_abEGo G child st ms score' (max alpha score') beta

/-- `min_value_ab` (`.1`) / `max_value_ab` (`.2`) with a raising oracle. -/
def abE_values (G : Game σ) (evE : σ → Except ExcKind ℚ) :
    Nat → (σ → Nat → Nat → SVal → SVal → Bool → Option (Except ExcKind SVal)) ×
          (σ → Nat → Nat → SVal → SVal → Bool → Option (Except ExcKind SVal))
  | 0 => (fun _ _ _ _ _ _ => none, fun _ _ _ _ _ _ => none)
  | fuel + 1 =>
    ( fun st n_depth max_depth alpha beta maximizing_player =>
        if n_depth = max_depth ∨ G.isWinner st true ∨ G.isLoser st true then
          match evE st with
          | .error e => some (.error e)
          | .ok q => some (.ok (qv q))
        else
          let n_moves := if maximizing_player then G.legalMoves st false
                         else G.legalMoves st true
          min_value_abEGo G
            (fun st' beta' =>
              (abE_values G evE fuel).2 st' (n_depth + 1) max_depth alpha beta' maximizing_player)
            st n_moves ⊤ alpha beta,
      fun st n_depth max_depth alpha beta maximizing_player =>
        if n_depth = max_depth ∨ G.isWinner st true ∨ G.isLoser st true then
          match evE st with
          | .error e => some (.error e)
          | .ok q => some (.ok (qv q))
        else
          let n_moves := if maximizing_player then G.legalMoves st true
                         else G.legalMoves st false
          max_value_abEGo G
            (fun st' alpha' =>
              (abE_values G evE fuel).1 st' (n_depth + 1) max_depth alpha' beta maximizing_player)
            st n_moves ⊥ alpha beta )

/-- The root loop of `alphabeta` under the `try:` of line 362 with a raising
oracle; same catch discipline as `minimaxEGo`. -/
def alphabetaEGo (G : Game σ) (evE : σ → Except ExcKind ℚ) (fuel : Nat)
    (game : σ) (depth : Nat) (maximizing_player : Bool) :
    List Move → SVal × Move → SVal → SVal → Option (Except ExcKind (SVal × Move))
  | [], acc, _, _ => some (.ok acc)
  | m :: ms, acc, alpha, beta =>
    let next_game := G.forecast game m
    if maximizing_player then
      match (abE_values G evE fuel).1 next_game 1 depth alpha beta maximizing_player with
      | none => none
      | some (.error .timeoutError) => some (.ok acc)       -- lines 411-412
      | some (.error .timeout) => some (.error .timeout)    -- uncaught
      | some (.ok score) =>
        let acc' := if acc.1 < score then (score, m) else acc
        if beta ≤ acc'.1 then some (.ok acc')
        else alphabetaEGo G evE fuel game depth maximizing_player ms acc'
               (max alpha acc'.1) beta
    else
      match (abE_values G evE fuel).2 next_game 1 depth alpha beta maximizing_player with
      | none => none
      | some (.error .timeoutError) => some (.ok acc)
      | some (.error .timeout) => some (.error .timeout)
      | some (.ok score) =>
        let acc' := if score < acc.1 then (score, m) else acc
        if acc'.1 ≤ alpha then some (.ok acc')
        else alphabetaEGo G evE fuel game depth maximizing_player ms acc'
               alpha (min alpha acc'.1)

/-- `CustomPlayer.alphabeta` with a raising evaluation oracle. -/
def alphabetaE (G : Game σ) (evE : σ → Except ExcKind ℚ)
    (time_left TIMER_THRESHOLD : ℚ) (game : σ) (depth : Nat)
    (alpha : SVal := ⊥) (beta : SVal := ⊤) (maximizing_player : Bool := true) :
    Option (Except ExcKind (SVal × Move)) :=
  if time_left < TIMER_THRESHOLD then
    match evE game with
    | .error e => some (.error e)
    | .ok q => some (.ok (qv q, board_get_move (G.legalMoves game true)))
  else
    let num_legal_moves := G.legalMoves game true
    let best_score : SVal := if maximizing_player then alpha else beta
    alphabetaEGo G evE depth game depth maximizing_player num_legal_moves
      (best_score, (-1, -1)) alpha beta

/-! ### Models written from the spec's claims (for refinement comparison) -/

/-- The Knuth-Moore relation between a windowed alpha-beta result `r` and the
plain minimax value `v` of the same node: fail-low results upper-bound the
true value, in-window results are exact, fail-high results lower-bound it. -/
@[reducible] def KMrel (alpha beta r v : SVal) : Prop :=
  (r ≤ alpha → v ≤ r) ∧ (alpha < r → r < beta → r = v) ∧ (beta ≤ r → r ≤ v)

/-- The root loop as the spec's claim describes it: identical to
`alphabetaGo` except that, when minimizing, "beta is tightened downward to
the running minimum" — `min beta best_score` — where the code has
`min alpha best_score` (line 407). -/
def alphabetaClaimGo (G : Game σ) (ev : σ → ℚ) (fuel : Nat) (game : σ)
    (depth : Nat) (maximizing_player : Bool) :
    List Move → SVal × Move → SVal → SVal → Option (SVal × Move)
  | [], acc, _, _ => some acc
  | m :: ms, acc, alpha, beta =>
    let next_game := G.forecast game m
    if maximizing_player then
      match min_value_ab G ev fuel next_game 1 depth alpha beta maximizing_player with
      | none => none
      | some score =>
        let acc' := if acc.1 < score then (score, m) else acc
        if beta ≤ acc'.1 then some acc'
        else alphabetaClaimGo G ev fuel game depth maximizing_player ms acc'
               (max alpha acc'.1) beta
    else
      match max_value_ab G ev fuel next_game 1 depth alpha beta maximizing_player with
      | none => none
      | some score =>
        let acc' := if score < acc.1 then (score, m) else acc
        if acc'.1 ≤ alpha then some acc'
        else alphabetaClaimGo G ev fuel game depth maximizing_player ms acc'
               alpha (min beta acc'.1)

/-- The `alphabeta` search body as the claim describes the top-level loop. -/
def alphabetaSearchClaim (G : Game σ) (ev : σ → ℚ) (game : σ) (depth : Nat)
    (alpha beta : SVal) (maximizing_player : Bool) : Option (SVal × Move) :=
  let best_score : SVal := if maximizing_player then alpha else beta
  alphabetaClaimGo G ev depth game depth maximizing_player
    (G.legalMoves game true) (best_score, (-1, -1)) alpha beta

/-- The root loop with the code's minimizing beta-update carried out: since
the loop continues only while `alpha < best_score`, the code's
`beta = min(alpha, best_score)` collapses beta to `alpha`. -/
def alphabetaAmendedGo (G : Game σ) (ev : σ → ℚ) (fuel : Nat) (game : σ)
    (depth : Nat) (maximizing_player : Bool) :
    List Move → SVal × Move → SVal → SVal → Option (SVal × Move)
  | [], acc, _, _ => some acc
  | m :: ms, acc, alpha, beta =>
    let next_game := G.forecast game m
    if maximizing_player then
      match min_value_ab G ev fuel next_game 1 depth alpha beta maximizing_player with
      | none => none
      | some score =>
        let acc' := if acc.1 < score then (score, m) else acc
        if beta ≤ acc'.1 then some acc'
        else alphabetaAmendedGo G ev fuel game depth maximizing_player ms acc'
               (max alpha acc'.1) beta
    else
      match max_value_ab G ev fuel next_game 1 depth alpha beta maximizing_player with
      | none => none
      | some score =>
        let acc' := if score < acc.1 then (score, m) else acc
        if acc'.1 ≤ alpha then some acc'
        else alphabetaAmendedGo G ev fuel game depth maximizing_player ms acc'
               alpha alpha

/-- The `alphabeta` search body with the collapsed minimizing beta-update. -/
def alphabetaSearchAmended (G : Game σ) (ev : σ → ℚ) (game : σ) (depth : Nat)
    (alpha beta : SVal) (maximizing_player : Bool) : Option (SVal × Move) :=
  let best_score : SVal := if maximizing_player then alpha else beta
  alphabetaAmendedGo G ev depth game depth maximizing_player
    (G.legalMoves game true) (best_score, (-1, -1)) alpha beta

/-- The descended-node search as the spec's invariant claims it: `sem` is
"this node applies maximizing semantics for the fixed self player" (the
root's flag XOR-ed with ply parity); the claim says the node enumerates
self's moves iff `sem`, maximizes iff `sem`, and flips `sem` each ply. -/
def xor_values (G : Game σ) (ev : σ → ℚ) :
    Nat → σ → Nat → Nat → Bool → Option SVal
  | 0 => fun _ _ _ _ => none
  | fuel + 1 => fun st n_depth max_depth sem =>
    if n_depth = max_depth ∨ G.isWinner st true ∨ G.isLoser st true then
      some (qv (ev st))
    else if sem then
      max_valueGo G (fun st' => xor_values G ev fuel st' (n_depth + 1) max_depth (!sem))
        st (G.legalMoves st true) ⊥
    else
      min_valueGo G (fun st' => xor_values G ev fuel st' (n_depth + 1) max_depth (!sem))
        st (G.legalMoves st false) ⊤

/-- Root loop over children evaluated by `xor_values` (same accumulation
discipline as `minimaxGo`). -/
def xorSearchGo (G : Game σ) (ev : σ → ℚ) (fuel : Nat) (game : σ)
    (depth : Nat) (maximizing_player : Bool) :
    List Move → SVal × Move → Option (SVal × Move)
  | [], acc => some acc
  | m :: ms, acc =>
    match xor_values G ev fuel (G.forecast game m) 1 depth (!maximizing_player) with
    | none => none
    | some score =>
      let acc' := if maximizing_player then (if acc.1 < score then (score, m) else acc)
                  else (if score < acc.1 then (score, m) else acc)
      xorSearchGo G ev fuel game depth maximizing_player ms acc'

/-- The minimax search as the claim describes it: at the root too, the side
whose moves are enumerated is given by the maximizing flag (self iff
maximizing), never by the literal active player. -/
def xorSearch (G : Game σ) (ev : σ → ℚ) (game : σ) (depth : Nat)
    (maximizing_player : Bool) : Option (SVal × Move) :=
  let best_score : SVal := if maximizing_player then ⊥ else ⊤
  xorSearchGo G ev depth game depth maximizing_player
    (G.legalMoves game maximizing_player) (best_score, (-1, -1))

/-- The descended-node search the code actually performs, written by turn
order: at ply `n_depth` the enumerated side is self iff `n_depth` is even
(the literal alternation from the root), independent of the flag; the node
maximizes iff the flag agrees with that parity. -/
def turn_values (G : Game σ) (ev : σ → ℚ) :
    Nat → σ → Nat → Nat → Bool → Option SVal
  | 0 => fun _ _ _ _ => none
  | fuel + 1 => fun st n_depth max_depth maximizing_player =>
    if n_depth = max_depth ∨ G.isWinner st true ∨ G.isLoser st true then
      some (qv (ev st))
    else
      let side : Bool := decide (n_depth % 2 = 0)
      if maximizing_player = side then
        max_valueGo G (fun st' => turn_values G ev fuel st' (n_depth + 1) max_depth maximizing_player)
          st (G.legalMoves st side) ⊥
      else
        min_valueGo G (fun st' => turn_values G ev fuel st' (n_depth + 1) max_depth maximizing_player)
          st (G.legalMoves st side) ⊤

/-- Root loop over children evaluated by `turn_values`. -/
def turnSearchGo (G : Game σ) (ev : σ → ℚ) (fuel : Nat) (game : σ)
    (depth : Nat) (maximizing_player : Bool) :
    List Move → SVal × Move → Option (SVal × Move)
  | [], acc => some acc
  | m :: ms, acc =>
    match turn_values G ev fuel (G.forecast game m) 1 depth maximizing_player with
    | none => none
    | some score =>
      let acc' := if maximizing_player then (if acc.1 < score then (score, m) else acc)
                  else (if score < acc.1 then (score, m) else acc)
      turnSearchGo G ev fuel game depth maximizing_player ms acc'

/-- The minimax search by turn order: the root (ply 0, an even ply)
enumerates self's moves. -/
def turnSearch (G : Game σ) (ev : σ → ℚ) (game : σ) (depth : Nat)
    (maximizing_player : Bool) : Option (SVal × Move) :=
  let best_score : SVal := if maximizing_player then ⊥ else ⊤
  turnSearchGo G ev depth game depth maximizing_player
    (G.legalMoves game true) (best_score, (-1, -1))

/-! ### Concrete fixtures for counterexamples and witnesses

States are natural numbers; a move `(i, j)` leads to state `j`
(`forecast st m = m.2.toNat`). -/

/-- Fixture for the minimizing-root alpha-beta defect: root `0` (self to
move, moves to `1` or `2`); at `1` the opponent can move to `3`; at `2` the
opponent can move to `4` or `5`. -/
def bugG : Game Nat where
  legalMoves st p :=
    match st, p with
    | 0, true => [(0, 1), (0, 2)]
    | 1, false => [(1, 3)]
    | 2, false => [(2, 4), (2, 5)]
    | _, _ => []
  forecast _ m := m.2.toNat
  isWinner _ _ := false
  isLoser _ _ := false
  activeIsSelf _ := true
  playerLoc _ _ := (0, 0)
  blankSpaces _ := []

/-- Leaf evaluations for `bugG`. -/
def bugEv : Nat → ℚ
  | 3 => 3
  | 4 => 0
  | 5 => 5
  | _ => 0

/-- Fixture where self's and the opponent's root moves differ: self can move
`0 ↦ 1`, the opponent could move `0 ↦ 2`. -/
def turnG : Game Nat where
  legalMoves st p :=
    match st, p with
    | 0, true => [(0, 1)]
    | 0, false => [(0, 2)]
    | _, _ => []
  forecast _ m := m.2.toNat
  isWinner _ _ := false
  isLoser _ _ := false
  activeIsSelf _ := true
  playerLoc _ _ := (0, 0)
  blankSpaces _ := []

/-- State-number evaluation for `turnG`. -/
def turnEv : Nat → ℚ := fun st => (st : ℚ)

/-- Fixture for exception flow: root `0` with self moves to `1` and `2`. -/
def e9G : Game Nat where
  legalMoves st p :=
    match st, p with
    | 0, true => [(0, 1), (0, 2)]
    | _, _ => []
  forecast _ m := m.2.toNat
  isWinner _ _ := false
  isLoser _ _ := false
  activeIsSelf _ := true
  playerLoc _ _ := (0, 0)
  blankSpaces _ := []

/-- Raising oracle: scores state `1` normally, raises the module's own
`Timeout` exception when asked to score state `2`. -/
def e9evT : Nat → Except ExcKind ℚ :=
  fun st => if st = 2 then .error .timeout else .ok 1

/-- A board with no legal moves anywhere. -/
def emptyG : Game Nat where
  legalMoves _ _ := []
  forecast st _ := st
  isWinner _ _ := false
  isLoser _ _ := false
  activeIsSelf _ := true
  playerLoc _ _ := (0, 0)
  blankSpaces _ := []

/-- The constantly-zero evaluation. -/
def zeroEv : Nat → ℚ := fun _ => 0

/-- A lawful board for the `get_move` witness: the game is already decided
everywhere (`is_winner`/`is_loser` both report `True`, making the
lawfulness obligations trivial), the agent is active on even states,
`forecast` alternates, and self's only root move is `0 ↦ 1`. -/
def w1G : Game Nat where
  legalMoves st p :=
    match st, p with
    | 0, true => [(0, 1)]
    | _, _ => []
  forecast st _ := st + 1
  isWinner _ _ := true
  isLoser _ _ := true
  activeIsSelf st := decide (st % 2 = 0)
  playerLoc _ _ := (0, 0)
  blankSpaces _ := []

/-! ### Basic facts about score values -/

theorem qv_ne_top (q : ℚ) : qv q ≠ (⊤ : SVal) := by
  simp [qv]

theorem qv_ne_bot (q : ℚ) : qv q ≠ (⊥ : SVal) := by
  simp [qv]

theorem qv_lt_top (q : ℚ) : qv q < (⊤ : SVal) := by
  exact lt_top_iff_ne_top.mpr (qv_ne_top q)

theorem bot_lt_qv (q : ℚ) : (⊥ : SVal) < qv q := by
  exact bot_lt_iff_ne_bot.mpr (qv_ne_bot q)

/-- C10: the evaluation function returns
`(own_legal_move_count − opponent_legal_move_count) /
 (1 + manhattan_distance(own_location, opponent_location) +
  remaining_blank_cell_count)`, with Manhattan distance `|dr| + |dc|`;
in particular `distance((0,0),(3,4)) = 7` and `distance((2,2),(2,2)) = 0`. -/
theorem C10_custom_score_formula : ∀ (σ : Type) (G : Game σ) (st : σ) (p : Bool),
    custom_score G st p =
      (((G.legalMoves st p).length : ℚ) - ((G.legalMoves st (!p)).length : ℚ)) /
        (1 + ((manhattan_distance (G.playerLoc st p) (G.playerLoc st (!p)) : ℤ) : ℚ) +
          ((G.blankSpaces st).length : ℚ)) ∧
    manhattan_distance (0, 0) (3, 4) = 7 ∧
    manhattan_distance (2, 2) (2, 2) = 0 := by
  intro σ G st p
  exact ⟨rfl, by decide, by decide⟩

/-- C2: when the clock reading at entry is below the timeout margin, both
`minimax` and `alphabeta` return immediately — zero `forecast_move` calls —
with the pair (evaluation of the current state, move drawn from self's
current legal moves). -/
theorem C2_entry_timeout_fallback : ∀ (σ : Type) (G : Game σ) (ev : σ → ℚ)
    (tl th : ℚ) (st : σ) (depth : Nat) (alpha beta : SVal) (M : Bool),
    tl < th →
    minimax G ev tl th st depth M =
      some (qv (ev st), board_get_move (G.legalMoves st true)) ∧
    alphabeta G ev tl th st depth alpha beta M =
      some (qv (ev st), board_get_move (G.legalMoves st true)) ∧
    minimaxCalls G ev tl th st depth M = some 0 ∧
    alphabetaCalls G ev tl th st depth alpha beta M = some 0 ∧
    (G.legalMoves st true ≠ [] →
      board_get_move (G.legalMoves st true) ∈ G.legalMoves st true) := by
  intro σ G ev tl th st depth alpha beta M h
  refine ⟨by simp [minimax, h], by simp [alphabeta, h],
    by simp [minimaxCalls, h], by simp [alphabetaCalls, h], ?_⟩
  intro hne
  cases hmv : G.legalMoves st true with
  | nil => exact absurd hmv hne
  | cons m ms => simp [board_get_move, hmv]

/-- Witness for C2 at a concrete input. -/
theorem C2_entry_timeout_fallback_witness :
    ((5 : ℚ) < 10) ∧
    (minimax w1G zeroEv 5 10 0 1 true =
        some (qv (zeroEv 0), board_get_move (w1G.legalMoves 0 true)) ∧
      alphabeta w1G zeroEv 5 10 0 1 ⊥ ⊤ true =
        some (qv (zeroEv 0), board_get_move (w1G.legalMoves 0 true)) ∧
      minimaxCalls w1G zeroEv 5 10 0 1 true = some 0 ∧
      alphabetaCalls w1G zeroEv 5 10 0 1 ⊥ ⊤ true = some 0 ∧
      (w1G.legalMoves 0 true ≠ [] →
        board_get_move (w1G.legalMoves 0 true) ∈ w1G.legalMoves 0 true)) :=
  ⟨by decide, C2_entry_timeout_fallback Nat w1G zeroEv 5 10 0 1 ⊥ ⊤ true (by decide)⟩

/-- C7: whenever `get_move` is called with an empty `legal_moves` list and
returns at all, it returns the sentinel `(-1, -1)`. -/
theorem C7_no_moves_sentinel : ∀ (σ : Type) (G : Game σ) (ev : σ → ℚ)
    (sd : Nat) (it : Bool) (method : String) (th : ℚ) (fuel : Nat) (game : σ)
    (clock : Nat → ℚ) (r : Option Move),
    get_move G ev sd it method th fuel game [] clock = .ret r →
    r = some (-1, -1) := by
  intro σ G ev sd it method th fuel game clock r h
  by_cases h1 : method = "minimax"
  · cases hm : minimax G ev (clock 0) th game 1 true with
    | none => simp [get_move, h1, hm] at h
    | some best =>
      obtain ⟨bs, bm⟩ := best
      cases hd : driverLoop G ev clock th it true game fuel 1 1 (bs, bm) with
      | none => simp [get_move, h1, hm, hd] at h
      | some p =>
        obtain ⟨ps, pm⟩ := p
        simp [get_move, h1, hm, hd] at h
        rw [← h]
        simp [get_moveReturn]
  · by_cases h2 : method = "alphabeta"
    · cases hm : alphabeta G ev (clock 0) th game 1 ⊥ ⊤ true with
      | none => simp [get_move, h1, h2, hm] at h
      | some best =>
        obtain ⟨bs, bm⟩ := best
        cases hd : driverLoop G ev clock th it false game fuel 1 1 (bs, bm) with
        | none => simp [get_move, h1, h2, hm, hd] at h
        | some p =>
          obtain ⟨ps, pm⟩ := p
          simp [get_move, h1, h2, hm, hd] at h
          rw [← h]
          simp [get_moveReturn]
    · simp [get_move, h1, h2] at h

/-- Witness for C7: a concrete no-moves call that terminates and returns
the sentinel. -/
theorem C7_no_moves_sentinel_witness :
    (get_move emptyG zeroEv 3 true "minimax" 10 1 0 [] (fun _ => 0) =
      .ret (some (-1, -1))) ∧ (some (-1, -1) : Option Move) = some (-1, -1) :=
  ⟨by decide,
    C7_no_moves_sentinel Nat emptyG zeroEv 3 true "minimax" 10 1 0 (fun _ => 0)
      (some (-1, -1)) (by decide)⟩

/-- C3: with `iterative = False` and a clock that always reports ample time,
`get_move` never terminates — the `while self.time_left() >= 600:` loop has
an empty body — and, independently of that, `get_move` ignores the
configured `search_depth` entirely (its one fixed search call is at
depth 1). -/
theorem C3_fixed_depth_defect :
    (∀ fuel, get_move emptyG zeroEv 3 false "minimax" 10 fuel 0 []
      (fun _ => 10000) = .outOfFuel) ∧
    (∀ (σ : Type) (G : Game σ) (ev : σ → ℚ) (sd sd' : Nat) (it : Bool)
      (method : String) (th : ℚ) (fuel : Nat) (game : σ) (legal : List Move)
      (clock : Nat → ℚ),
      get_move G ev sd it method th fuel game legal clock =
      get_move G ev sd' it method th fuel game legal clock) := by
  constructor
  · have loop : ∀ f d idx best,
        driverLoop emptyG zeroEv (fun _ => 10000) 10 false true 0 f d idx best =
          none := by
      intro f
      induction f with
      | zero => intro d idx best; simp [driverLoop]
      | succ n ih =>
        intro d idx best
        simp only [driverLoop]
        rw [if_pos (by norm_num), if_neg (by simp)]
        exact ih d (idx + 1) best
    intro fuel
    have h1 : minimax emptyG zeroEv 10000 10 0 1 true = some (⊥, (-1, -1)) := by
      decide
    simp [get_move, h1, loop]
  · intro σ G ev sd sd' it method th fuel game legal clock
    rfl

/-- C4 counterexample: on `bugG` with a minimizing root at depth 2,
`alphabeta` called with the full window returns best score 0 while `minimax`
returns best score 3 (the root's `beta = min(alpha, best_score)` collapses
the second child's window). -/
theorem C4_counterexample :
    (alphabeta bugG bugEv 1000 10 0 2 ⊥ ⊤ false).map Prod.fst ≠
    (minimax bugG bugEv 1000 10 0 2 false).map Prod.fst := by
  decide

/-- C5 counterexample: the top-level loop of `alphabeta` does not tighten
beta to the running minimum when minimizing; on `bugG` its result differs
from the loop the claim describes. -/
theorem C5_counterexample :
    alphabetaSearch bugG bugEv 0 2 ⊥ ⊤ false ≠
    alphabetaSearchClaim bugG bugEv 0 2 ⊥ ⊤ false := by
  decide

/-- C6 counterexample: with `maximizing = False` on `turnG`, the minimax
root enumerates the active player's (self's) moves, not — as the
flag-XOR-parity rule claims — the opponent's, and the result differs from
the claimed model. -/
theorem C6_counterexample :
    minimaxSearch turnG turnEv 0 1 false ≠ xorSearch turnG turnEv 0 1 false := by
  decide

/-- C9 counterexample: an exception of the module's own `Timeout` class
raised by the evaluation oracle during the recursion (here after the first
root child has been evaluated) is not caught by `except TimeoutError:` and
propagates out of `minimax` as a failure. -/
theorem C9_counterexample :
    minimaxE e9G e9evT 1000 10 0 1 true = some (.error .timeout) := by
  rfl

/-! ### The top-level alpha-beta loop (C5) -/

theorem abGo_max_claim_eq (G : Game σ) (ev : σ → ℚ) (fuel : Nat) (game : σ)
    (depth : Nat) : ∀ (ms : List Move) (acc : SVal × Move) (alpha beta : SVal),
    alphabetaGo G ev fuel game depth true ms acc alpha beta =
    alphabetaClaimGo G ev fuel game depth true ms acc alpha beta := by
  intro ms
  induction ms with
  | nil => intro acc alpha beta; rfl
  | cons m ms ih =>
    intro acc alpha beta
    simp only [alphabetaGo, alphabetaClaimGo, if_true]
    cases min_value_ab G ev fuel (G.forecast game m) 1 depth alpha beta true with
    | none => rfl
    | some score =>
      dsimp only
      generalize (if acc.1 < score then (score, m) else acc) = acc2
      split
      · rfl
      · exact ih _ _ _

theorem abGo_min_amended_eq (G : Game σ) (ev : σ → ℚ) (fuel : Nat) (game : σ)
    (depth : Nat) : ∀ (ms : List Move) (acc : SVal × Move) (alpha beta : SVal),
    alphabetaGo G ev fuel game depth false ms acc alpha beta =
    alphabetaAmendedGo G ev fuel game depth false ms acc alpha beta := by
  intro ms
  induction ms with
  | nil => intro acc alpha beta; rfl
  | cons m ms ih =>
    intro acc alpha beta
    simp only [alphabetaGo, alphabetaAmendedGo, if_false, Bool.false_eq_true,
      ite_false]
    cases max_value_ab G ev fuel (G.forecast game m) 1 depth alpha beta false with
    | none => rfl
    | some score =>
      dsimp only
      generalize (if score < acc.1 then (score, m) else acc) = acc2
      split
      · rfl
      · rename_i hcut
        have hlt : alpha < acc2.1 := lt_of_not_le hcut
        rw [inf_eq_left.mpr hlt.le]
        exact ih _ _ _

/-- C5 (amended): the top-level loop of `alphabeta` initializes `best_score`
to alpha (maximizing) / beta (minimizing), stops enumerating when
`best_score` reaches or crosses beta (maximizing) / alpha (minimizing), and
tightens alpha upward to the running maximum when maximizing — but when
minimizing it sets `beta = min(alpha, best_score)`, i.e. collapses beta to
alpha (line 407), instead of tightening beta to the running minimum. -/
theorem C5_root_loop_amended : ∀ (σ : Type) (G : Game σ) (ev : σ → ℚ)
    (game : σ) (depth : Nat) (alpha beta : SVal),
    alphabetaSearch G ev game depth alpha beta true =
      alphabetaSearchClaim G ev game depth alpha beta true ∧
    alphabetaSearch G ev game depth alpha beta false =
      alphabetaSearchAmended G ev game depth alpha beta false := by
  intro σ G ev game depth alpha beta
  constructor
  · simp only [alphabetaSearch, alphabetaSearchClaim]
    exact abGo_max_claim_eq G ev depth game depth _ _ _ _
  · simp only [alphabetaSearch, alphabetaSearchAmended]
    exact abGo_min_amended_eq G ev depth game depth _ _ _ _

/-! ### Counter monotonicity (C8) -/

theorem mmGoCalls_le (G : Game σ) (childC : σ → Option Nat) (st : σ) :
    ∀ (ms : List Move) (c r : Nat), mmGoCalls G childC st ms c = some r →
    c ≤ r := by
  intro ms
  induction ms with
  | nil => intro c r h; simp [mmGoCalls] at h; omega
  | cons m ms ih =>
    intro c r h
    simp only [mmGoCalls] at h
    cases hc : childC (G.forecast st m) with
    | none => rw [hc] at h; exact absurd h (by simp)
    | some k =>
      rw [hc] at h
      have := ih (c + 1 + k) r h
      omega

theorem min_abGoCalls_le (G : Game σ) (childV : σ → SVal → Option SVal)
    (childC : σ → SVal → Option Nat) (st : σ) :
    ∀ (ms : List Move) (c : Nat) (s alpha beta : SVal) (r : Nat),
    min_abGoCalls G childV childC st ms c s alpha beta = some r → c ≤ r := by
  intro ms
  induction ms with
  | nil => intro c s alpha beta r h; simp [min_abGoCalls] at h; omega
  | cons m ms ih =>
    intro c s alpha beta r h
    simp only [min_abGoCalls] at h
    cases hv : childV (G.forecast st m) beta with
    | none => rw [hv] at h; exact absurd h (by simp)
    | some v =>
      cases hc : childC (G.forecast st m) beta with
      | none => rw [hv, hc] at h; exact absurd h (by simp)
      | some k =>
        rw [hv, hc] at h
        dsimp only at h
        split at h
        · simp only [Option.some.injEq] at h
          omega
        · have := ih (c + 1 + k) _ _ _ r h
          omega

theorem max_abGoCalls_le (G : Game σ) (childV : σ → SVal → Option SVal)
    (childC : σ → SVal → Option Nat) (st : σ) :
    ∀ (ms : List Move) (c : Nat) (s alpha beta : SVal) (r : Nat),
    max_abGoCalls G childV childC st ms c s alpha beta = some r → c ≤ r := by
  intro ms
  induction ms with
  | nil => intro c s alpha beta r h; simp [max_abGoCalls] at h; omega
  | cons m ms ih =>
    intro c s alpha beta r h
    simp only [max_abGoCalls] at h
    cases hv : childV (G.forecast st m) alpha with
    | none => rw [hv] at h; exact absurd h (by simp)
    | some v =>
      cases hc : childC (G.forecast st m) alpha with
      | none => rw [hv, hc] at h; exact absurd h (by simp)
      | some k =>
        rw [hv, hc] at h
        dsimp only at h
        split at h
        · simp only [Option.some.injEq] at h
          omega
        · have := ih (c + 1 + k) _ _ _ r h
          omega

/-! ### One-step unfolding equations for the fuel-indexed searches -/

theorem min_value_zero (G : Game σ) (ev : σ → ℚ) (st : σ) (nd md : Nat)
    (M : Bool) : min_value G ev 0 st nd md M = none := rfl

theorem max_value_zero (G : Game σ) (ev : σ → ℚ) (st : σ) (nd md : Nat)
    (M : Bool) : max_value G ev 0 st nd md M = none := rfl

theorem min_value_succ (G : Game σ) (ev : σ → ℚ) (k : Nat) (st : σ)
    (nd md : Nat) (M : Bool) :
    min_value G ev (k + 1) st nd md M =
      if nd = md ∨ G.isWinner st true ∨ G.isLoser st true then some (qv (ev st))
      else min_valueGo G (fun st' => max_value G ev k st' (nd + 1) md M) st
        (if M then G.legalMoves st false else G.legalMoves st true) ⊤ := rfl

theorem max_value_succ (G : Game σ) (ev : σ → ℚ) (k : Nat) (st : σ)
    (nd md : Nat) (M : Bool) :
    max_value G ev (k + 1) st nd md M =
      if nd = md ∨ G.isWinner st true ∨ G.isLoser st true then some (qv (ev st))
      else max_valueGo G (fun st' => min_value G ev k st' (nd + 1) md M) st
        (if M then G.legalMoves st true else G.legalMoves st false) ⊥ := rfl

theorem min_value_ab_zero (G : Game σ) (ev : σ → ℚ) (st : σ) (nd md : Nat)
    (alpha beta : SVal) (M : Bool) :
    min_value_ab G ev 0 st nd md alpha beta M = none := rfl

theorem max_value_ab_zero (G : Game σ) (ev : σ → ℚ) (st : σ) (nd md : Nat)
    (alpha beta : SVal) (M : Bool) :
    max_value_ab G ev 0 st nd md alpha beta M = none := rfl

theorem min_value_ab_succ (G : Game σ) (ev : σ → ℚ) (k : Nat) (st : σ)
    (nd md : Nat) (alpha beta : SVal) (M : Bool) :
    min_value_ab G ev (k + 1) st nd md alpha beta M =
      if nd = md ∨ G.isWinner st true ∨ G.isLoser st true then some (qv (ev st))
      else min_value_abGo G
        (fun st' beta' => max_value_ab G ev k st' (nd + 1) md alpha beta' M) st
        (if M then G.legalMoves st false else G.legalMoves st true) ⊤ alpha beta := rfl

theorem max_value_ab_succ (G : Game σ) (ev : σ → ℚ) (k : Nat) (st : σ)
    (nd md : Nat) (alpha beta : SVal) (M : Bool) :
    max_value_ab G ev (k + 1) st nd md alpha beta M =
      if nd = md ∨ G.isWinner st true ∨ G.isLoser st true then some (qv (ev st))
      else max_value_abGo G
        (fun st' alpha' => min_value_ab G ev k st' (nd + 1) md alpha' beta M) st
        (if M then G.legalMoves st true else G.legalMoves st false) ⊥ alpha beta := rfl

theorem min_valueCalls_succ (G : Game σ) (ev : σ → ℚ) (k : Nat) (st : σ)
    (nd md : Nat) (M : Bool) :
    min_valueCalls G ev (k + 1) st nd md M =
      if nd = md ∨ G.isWinner st true ∨ G.isLoser st true then some 0
      else mmGoCalls G (fun st' => max_valueCalls G ev k st' (nd + 1) md M) st
        (if M then G.legalMoves st false else G.legalMoves st true) 0 := rfl

theorem max_valueCalls_succ (G : Game σ) (ev : σ → ℚ) (k : Nat) (st : σ)
    (nd md : Nat) (M : Bool) :
    max_valueCalls G ev (k + 1) st nd md M =
      if nd = md ∨ G.isWinner st true ∨ G.isLoser st true then some 0
      else mmGoCalls G (fun st' => min_valueCalls G ev k st' (nd + 1) md M) st
        (if M then G.legalMoves st true else G.legalMoves st false) 0 := rfl

theorem min_value_abCalls_succ (G : Game σ) (ev : σ → ℚ) (k : Nat) (st : σ)
    (nd md : Nat) (alpha beta : SVal) (M : Bool) :
    min_value_abCalls G ev (k + 1) st nd md alpha beta M =
      if nd = md ∨ G.isWinner st true ∨ G.isLoser st true then some 0
      else min_abGoCalls G
        (fun st' beta' => max_value_ab G ev k st' (nd + 1) md alpha beta' M)
        (fun st' beta' => max_value_abCalls G ev k st' (nd + 1) md alpha beta' M) st
        (if M then G.legalMoves st false else G.legalMoves st true) 0 ⊤ alpha beta := rfl

theorem max_value_abCalls_succ (G : Game σ) (ev : σ → ℚ) (k : Nat) (st : σ)
    (nd md : Nat) (alpha beta : SVal) (M : Bool) :
    max_value_abCalls G ev (k + 1) st nd md alpha beta M =
      if nd = md ∨ G.isWinner st true ∨ G.isLoser st true then some 0
      else max_abGoCalls G
        (fun st' alpha' => min_value_ab G ev k st' (nd + 1) md alpha' beta M)
        (fun st' alpha' => min_value_abCalls G ev k st' (nd + 1) md alpha' beta M) st
        (if M then G.legalMoves st true else G.legalMoves st false) 0 ⊥ alpha beta := rfl

/-- C8: at every descended node of `minimax` and of `alphabeta`, the search
returns the evaluation of that state with zero further `forecast_move`
calls exactly when the accumulated ply count equals the configured maximum
depth, or self has won, or self has lost, in that state. -/
theorem C8_terminal_test : ∀ (σ : Type) (G : Game σ) (ev : σ → ℚ)
    (fuel : Nat) (st : σ) (nd md : Nat) (alpha beta : SVal) (M : Bool),
    0 < fuel →
    ((nd = md ∨ G.isWinner st true = true ∨ G.isLoser st true = true) ↔
      (min_value G ev fuel st nd md M = some (qv (ev st)) ∧
        min_valueCalls G ev fuel st nd md M = some 0)) ∧
    ((nd = md ∨ G.isWinner st true = true ∨ G.isLoser st true = true) ↔
      (max_value G ev fuel st nd md M = some (qv (ev st)) ∧
        max_valueCalls G ev fuel st nd md M = some 0)) ∧
    ((nd = md ∨ G.isWinner st true = true ∨ G.isLoser st true = true) ↔
      (min_value_ab G ev fuel st nd md alpha beta M = some (qv (ev st)) ∧
        min_value_abCalls G ev fuel st nd md alpha beta M = some 0)) ∧
    ((nd = md ∨ G.isWinner st true = true ∨ G.isLoser st true = true) ↔
      (max_value_ab G ev fuel st nd md alpha beta M = some (qv (ev st)) ∧
        max_value_abCalls G ev fuel st nd md alpha beta M = some 0)) := by
  intro σ G ev fuel st nd md alpha beta M hf
  obtain ⟨k, rfl⟩ : ∃ k, fuel = k + 1 := ⟨fuel - 1, by omega⟩
  refine And.intro (Iff.intro (fun h => ?_) (fun h => ?_))
    (And.intro (Iff.intro (fun h => ?_) (fun h => ?_))
      (And.intro (Iff.intro (fun h => ?_) (fun h => ?_))
        (Iff.intro (fun h => ?_) (fun h => ?_))))
  · rw [min_value_succ, min_valueCalls_succ, if_pos h, if_pos h]
    exact ⟨rfl, rfl⟩
  · obtain ⟨hv, hc⟩ := h
    by_contra hn
    rw [min_value_succ, if_neg hn] at hv
    rw [min_valueCalls_succ, if_neg hn] at hc
    cases hmv : (if M then G.legalMoves st false else G.legalMoves st true) with
    | nil =>
      rw [hmv] at hv
      simp only [min_valueGo, Option.some.injEq] at hv
      exact qv_ne_top (ev st) hv.symm
    | cons m ms =>
      rw [hmv] at hc
      simp only [mmGoCalls] at hc
      cases hcc : max_valueCalls G ev k (G.forecast st m) (nd + 1) md M with
      | none => rw [hcc] at hc; exact absurd hc (by simp)
      | some kk =>
        rw [hcc] at hc
        have := mmGoCalls_le G _ st ms (0 + 1 + kk) 0 hc
        omega
  · rw [max_value_succ, max_valueCalls_succ, if_pos h, if_pos h]
    exact ⟨rfl, rfl⟩
  · obtain ⟨hv, hc⟩ := h
    by_contra hn
    rw [max_value_succ, if_neg hn] at hv
    rw [max_valueCalls_succ, if_neg hn] at hc
    cases hmv : (if M then G.legalMoves st true else G.legalMoves st false) with
    | nil =>
      rw [hmv] at hv
      simp only [max_valueGo, Option.some.injEq] at hv
      exact qv_ne_bot (ev st) hv.symm
    | cons m ms =>
      rw [hmv] at hc
      simp only [mmGoCalls] at hc
      cases hcc : min_valueCalls G ev k (G.forecast st m) (nd + 1) md M with
      | none => rw [hcc] at hc; exact absurd hc (by simp)
      | some kk =>
        rw [hcc] at hc
        have := mmGoCalls_le G _ st ms (0 + 1 + kk) 0 hc
        omega
  · rw [min_value_ab_succ, min_value_abCalls_succ, if_pos h, if_pos h]
    exact ⟨rfl, rfl⟩
  · obtain ⟨hv, hc⟩ := h
    by_contra hn
    rw [min_value_ab_succ, if_neg hn] at hv
    rw [min_value_abCalls_succ, if_neg hn] at hc
    cases hmv : (if M then G.legalMoves st false else G.legalMoves st true) with
    | nil =>
      rw [hmv] at hv
      simp only [min_value_abGo, Option.some.injEq] at hv
      exact qv_ne_top (ev st) hv.symm
    | cons m ms =>
      rw [hmv] at hc
      simp only [min_abGoCalls] at hc
      cases hvv : max_value_ab G ev k (G.forecast st m) (nd + 1) md alpha beta M with
      | none => rw [hvv] at hc; exact absurd hc (by simp)
      | some v =>
        cases hcc : max_value_abCalls G ev k (G.forecast st m) (nd + 1) md alpha beta M with
        | none => rw [hvv, hcc] at hc; exact absurd hc (by simp)
        | some kk =>
          rw [hvv, hcc] at hc
          dsimp only at hc
          split at hc
          · simp only [Option.some.injEq] at hc
            omega
          · have := min_abGoCalls_le G _ _ st ms (0 + 1 + kk) _ _ _ 0 hc
            omega
  · rw [max_value_ab_succ, max_value_abCalls_succ, if_pos h, if_pos h]
    exact ⟨rfl, rfl⟩
  · obtain ⟨hv, hc⟩ := h
    by_contra hn
    rw [max_value_ab_succ, if_neg hn] at hv
    rw [max_value_abCalls_succ, if_neg hn] at hc
    cases hmv : (if M then G.legalMoves st true else G.legalMoves st false) with
    | nil =>
      rw [hmv] at hv
      simp only [max_value_abGo, Option.some.injEq] at hv
      exact qv_ne_bot (ev st) hv.symm
    | cons m ms =>
      rw [hmv] at hc
      simp only [max_abGoCalls] at hc
      cases hvv : min_value_ab G ev k (G.forecast st m) (nd + 1) md alpha beta M with
      | none => rw [hvv] at hc; exact absurd hc (by simp)
      | some v =>
        cases hcc : min_value_abCalls G ev k (G.forecast st m) (nd + 1) md alpha beta M with
        | none => rw [hvv, hcc] at hc; exact absurd hc (by simp)
        | some kk =>
          rw [hvv, hcc] at hc
          dsimp only at hc
          split at hc
          · simp only [Option.some.injEq] at hc
            omega
          · have := max_abGoCalls_le G _ _ st ms (0 + 1 + kk) _ _ _ 0 hc
            omega

/-- Witness for C8 at a concrete terminal node (depth reached). -/
theorem C8_terminal_test_witness :
    0 < 1 ∧
    (((1 = 1 ∨ bugG.isWinner 3 true = true ∨ bugG.isLoser 3 true = true) ↔
      (min_value bugG bugEv 1 3 1 1 true = some (qv (bugEv 3)) ∧
        min_valueCalls bugG bugEv 1 3 1 1 true = some 0)) ∧
    ((1 = 1 ∨ bugG.isWinner 3 true = true ∨ bugG.isLoser 3 true = true) ↔
      (max_value bugG bugEv 1 3 1 1 true = some (qv (bugEv 3)) ∧
        max_valueCalls bugG bugEv 1 3 1 1 true = some 0)) ∧
    ((1 = 1 ∨ bugG.isWinner 3 true = true ∨ bugG.isLoser 3 true = true) ↔
      (min_value_ab bugG bugEv 1 3 1 1 ⊥ ⊤ true = some (qv (bugEv 3)) ∧
        min_value_abCalls bugG bugEv 1 3 1 1 ⊥ ⊤ true = some 0)) ∧
    ((1 = 1 ∨ bugG.isWinner 3 true = true ∨ bugG.isLoser 3 true = true) ↔
      (max_value_ab bugG bugEv 1 3 1 1 ⊥ ⊤ true = some (qv (bugEv 3)) ∧
        max_value_abCalls bugG bugEv 1 3 1 1 ⊥ ⊤ true = some 0))) :=
  ⟨by decide, C8_terminal_test Nat bugG bugEv 1 3 1 1 ⊥ ⊤ true (by decide)⟩

/-! ### Exception flow at the search roots (C9) -/

theorem minimaxEGo_no_timeoutError (G : Game σ) (evE : σ → Except ExcKind ℚ)
    (fuel : Nat) (game : σ) (depth : Nat) (M : Bool) :
    ∀ (ms : List Move) (acc : SVal × Move),
    minimaxEGo G evE fuel game depth M ms acc ≠
      some (.error .timeoutError) := by
  intro ms
  induction ms with
  | nil => intro acc; simp [minimaxEGo]
  | cons m ms ih =>
    intro acc
    simp only [minimaxEGo]
    cases hch : (if M then min_valueE G evE fuel (G.forecast game m) 1 depth M
        else max_valueE G evE fuel (G.forecast game m) 1 depth M) with
    | none => simp
    | some res =>
      cases res with
      | error e => cases e <;> simp
      | ok score => exact ih _

theorem alphabetaEGo_no_timeoutError (G : Game σ) (evE : σ → Except ExcKind ℚ)
    (fuel : Nat) (game : σ) (depth : Nat) (M : Bool) :
    ∀ (ms : List Move) (acc : SVal × Move) (alpha beta : SVal),
    alphabetaEGo G evE fuel game depth M ms acc alpha beta ≠
      some (.error .timeoutError) := by
  intro ms
  induction ms with
  | nil => intro acc alpha beta; simp [alphabetaEGo]
  | cons m ms ih =>
    intro acc alpha beta
    simp only [alphabetaEGo]
    by_cases hM : M
    · rw [if_pos hM]
      cases hch : (abE_values G evE fuel).1 (G.forecast game m) 1 depth alpha beta M with
      | none => simp
      | some res =>
        cases res with
        | error e => cases e <;> simp
        | ok score =>
          dsimp only
          generalize (if acc.1 < score then (score, m) else acc) = acc2
          split
          · simp
          · exact ih _ _ _
    · rw [if_neg hM]
      cases hch : (abE_values G evE fuel).2 (G.forecast game m) 1 depth alpha beta M with
      | none => simp
      | some res =>
        cases res with
        | error e => cases e <;> simp
        | ok score =>
          dsimp only
          generalize (if score < acc.1 then (score, m) else acc) = acc2
          split
          · simp
          · exact ih _ _ _

/-- C9 (amended): only exceptions of Python's builtin `TimeoutError` class
raised inside the recursive search are caught at the root — the `except
TimeoutError:` handler then returns the `(best_score, best_move)`
accumulated so far — while the module's own `Timeout` exception class is
not a `TimeoutError` and propagates out of `minimax`/`alphabeta` uncaught. -/
theorem C9_timeout_catch_amended : ∀ (σ : Type) (G : Game σ)
    (evE : σ → Except ExcKind ℚ) (tl th : ℚ) (st : σ) (depth : Nat)
    (alpha beta : SVal) (M : Bool), th ≤ tl →
    minimaxE G evE tl th st depth M ≠ some (.error .timeoutError) ∧
    alphabetaE G evE tl th st depth alpha beta M ≠
      some (.error .timeoutError) ∧
    (∀ (fuel : Nat) (game : σ) (m : Move) (ms : List Move) (acc : SVal × Move),
      (if M then min_valueE G evE fuel (G.forecast game m) 1 depth M
       else max_valueE G evE fuel (G.forecast game m) 1 depth M) =
        some (.error .timeoutError) →
      minimaxEGo G evE fuel game depth M (m :: ms) acc = some (.ok acc)) ∧
    (∀ (fuel : Nat) (game : σ) (m : Move) (ms : List Move) (acc : SVal × Move),
      (abE_values G evE fuel).1 (G.forecast game m) 1 depth alpha beta true =
        some (.error .timeoutError) →
      alphabetaEGo G evE fuel game depth true (m :: ms) acc alpha beta =
        some (.ok acc)) ∧
    (∀ (fuel : Nat) (game : σ) (m : Move) (ms : List Move) (acc : SVal × Move),
      (abE_values G evE fuel).2 (G.forecast game m) 1 depth alpha beta false =
        some (.error .timeoutError) →
      alphabetaEGo G evE fuel game depth false (m :: ms) acc alpha beta =
        some (.ok acc)) := by
  intro σ G evE tl th st depth alpha beta M h
  have hnl : ¬ tl < th := not_lt.mpr h
  refine ⟨?_, ?_, ?_, ?_, ?_⟩
  · simp only [minimaxE, if_neg hnl]
    exact minimaxEGo_no_timeoutError G evE depth st depth M _ _
  · simp only [alphabetaE, if_neg hnl]
    exact alphabetaEGo_no_timeoutError G evE depth st depth M _ _ _ _
  · intro fuel game m ms acc hch
    simp only [minimaxEGo, hch]
  · intro fuel game m ms acc hch
    simp [alphabetaEGo, hch]
  · intro fuel game m ms acc hch
    simp [alphabetaEGo, hch]

/-- Witness for C9 at a concrete input. -/
theorem C9_timeout_catch_amended_witness :
    ((10 : ℚ) ≤ 1000) ∧
    minimaxE e9G e9evT 1000 10 0 1 true ≠ some (.error .timeoutError) :=
  ⟨by decide,
    (C9_timeout_catch_amended Nat e9G e9evT 1000 10 0 1 ⊥ ⊤ true (by decide)).1⟩

/-! ### Whose moves are enumerated (C6) -/

theorem min_valueGo_congr (G : Game σ) (child child' : σ → Option SVal)
    (st : σ) (h : ∀ st', child st' = child' st') :
    ∀ (ms : List Move) (s : SVal),
    min_valueGo G child st ms s = min_valueGo G child' st ms s := by
  intro ms
  induction ms with
  | nil => intro s; rfl
  | cons m ms ih =>
    intro s
    simp only [min_valueGo, h]
    cases child' (G.forecast st m) with
    | none => rfl
    | some v => exact ih _

theorem max_valueGo_congr (G : Game σ) (child child' : σ → Option SVal)
    (st : σ) (h : ∀ st', child st' = child' st') :
    ∀ (ms : List Move) (s : SVal),
    max_valueGo G child st ms s = max_valueGo G child' st ms s := by
  intro ms
  induction ms with
  | nil => intro s; rfl
  | cons m ms ih =>
    intro s
    simp only [max_valueGo, h]
    cases child' (G.forecast st m) with
    | none => rfl
    | some v => exact ih _

theorem turn_values_succ (G : Game σ) (ev : σ → ℚ) (k : Nat) (st : σ)
    (nd md : Nat) (M : Bool) :
    turn_values G ev (k + 1) st nd md M =
      if nd = md ∨ G.isWinner st true ∨ G.isLoser st true then some (qv (ev st))
      else if M = decide (nd % 2 = 0) then
        max_valueGo G (fun st' => turn_values G ev k st' (nd + 1) md M) st
          (G.legalMoves st (decide (nd % 2 = 0))) ⊥
      else
        min_valueGo G (fun st' => turn_values G ev k st' (nd + 1) md M) st
          (G.legalMoves st (decide (nd % 2 = 0))) ⊤ := rfl

theorem mm_turn_eq (G : Game σ) (ev : σ → ℚ) : ∀ (fuel : Nat) (st : σ)
    (nd md : Nat) (M : Bool),
    ((nd % 2 = 1 ↔ M = true) →
      min_value G ev fuel st nd md M = turn_values G ev fuel st nd md M) ∧
    ((nd % 2 = 1 ↔ M = false) →
      max_value G ev fuel st nd md M = turn_values G ev fuel st nd md M) := by
  intro fuel
  induction fuel with
  | zero => intro st nd md M; exact ⟨fun _ => rfl, fun _ => rfl⟩
  | succ k ih =>
    intro st nd md M
    constructor
    · intro hpar
      rw [min_value_succ, turn_values_succ]
      by_cases hterm : nd = md ∨ G.isWinner st true ∨ G.isLoser st true
      · rw [if_pos hterm, if_pos hterm]
      · rw [if_neg hterm, if_neg hterm]
        cases M with
        | true =>
          have hodd : nd % 2 = 1 := hpar.mpr rfl
          have hside : decide (nd % 2 = 0) = false := by
            exact decide_eq_false (by omega)
          have hch : ∀ st', max_value G ev k st' (nd + 1) md true =
              turn_values G ev k st' (nd + 1) md true :=
            fun st' => (ih st' (nd + 1) md true).2
              (iff_of_false (by omega) (by simp))
          simp only [hside, ite_true, Bool.true_eq_false, ite_false]
          exact min_valueGo_congr G _ _ st hch _ _
        | false =>
          have heven : nd % 2 = 0 := by
            rcases Nat.mod_two_eq_zero_or_one nd with h | h
            · exact h
            · exact absurd (hpar.mp h) (by simp)
          have hside : decide (nd % 2 = 0) = true := decide_eq_true heven
          have hch : ∀ st', max_value G ev k st' (nd + 1) md false =
              turn_values G ev k st' (nd + 1) md false :=
            fun st' => (ih st' (nd + 1) md false).2
              (iff_of_true (by omega) rfl)
          simp only [hside, Bool.false_eq_true, ite_false]
          exact min_valueGo_congr G _ _ st hch _ _
    · intro hpar
      rw [max_value_succ, turn_values_succ]
      by_cases hterm : nd = md ∨ G.isWinner st true ∨ G.isLoser st true
      · rw [if_pos hterm, if_pos hterm]
      · rw [if_neg hterm, if_neg hterm]
        cases M with
        | true =>
          have heven : nd % 2 = 0 := by
            rcases Nat.mod_two_eq_zero_or_one nd with h | h
            · exact h
            · exact absurd (hpar.mp h) (by simp)
          have hside : decide (nd % 2 = 0) = true := decide_eq_true heven
          have hch : ∀ st', min_value G ev k st' (nd + 1) md true =
              turn_values G ev k st' (nd + 1) md true :=
            fun st' => (ih st' (nd + 1) md true).1
              (iff_of_true (by omega) rfl)
          simp only [hside, ite_true]
          exact max_valueGo_congr G _ _ st hch _ _
        | false =>
          have hodd : nd % 2 = 1 := hpar.mpr rfl
          have hside : decide (nd % 2 = 0) = false := by
            exact decide_eq_false (by omega)
          have hch : ∀ st', min_value G ev k st' (nd + 1) md false =
              turn_values G ev k st' (nd + 1) md false :=
            fun st' => (ih st' (nd + 1) md false).1
              (iff_of_false (by omega) (by simp))
          simp only [hside, Bool.false_eq_true, ite_false]
          exact max_valueGo_congr G _ _ st hch _ _

theorem mmGo_turnGo (G : Game σ) (ev : σ → ℚ) (fuel : Nat) (game : σ)
    (depth : Nat) (M : Bool)
    (hch : ∀ st', (if M then min_value G ev fuel st' 1 depth M
      else max_value G ev fuel st' 1 depth M) =
      turn_values G ev fuel st' 1 depth M) :
    ∀ (ms : List Move) (acc : SVal × Move),
    minimaxGo G ev fuel game depth M ms acc =
      turnSearchGo G ev fuel game depth M ms acc := by
  intro ms
  induction ms with
  | nil => intro acc; rfl
  | cons m ms ih =>
    intro acc
    cases M with
    | true =>
      have h := hch (G.forecast game m)
      rw [if_pos rfl] at h
      simp only [minimaxGo, turnSearchGo, ite_true, h]
      cases turn_values G ev fuel (G.forecast game m) 1 depth true with
      | none => rfl
      | some score => exact ih _
    | false =>
      have h := hch (G.forecast game m)
      rw [if_neg (by simp)] at h
      simp only [minimaxGo, turnSearchGo, Bool.false_eq_true, ite_false, h]
      cases turn_values G ev fuel (G.forecast game m) 1 depth false with
      | none => rfl
      | some score => exact ih _

/-- C6 (amended): at every descended node the side whose legal moves are
enumerated follows the literal alternating turn order from the root — self
at even plies, the opponent at odd plies — independently of the maximizing
flag (so it coincides with the claimed flag-XOR-parity rule exactly when
the flag is `True`), and the minimax root enumerates the literal active
player's moves (self's, when self is active). -/
theorem C6_move_enumeration_amended : ∀ (σ : Type) (G : Game σ) (ev : σ → ℚ)
    (fuel : Nat) (st : σ) (nd md : Nat) (M : Bool) (st0 : σ) (depth : Nat)
    (M0 : Bool),
    ((nd % 2 = 1 ↔ M = true) →
      min_value G ev fuel st nd md M = turn_values G ev fuel st nd md M) ∧
    ((nd % 2 = 1 ↔ M = false) →
      max_value G ev fuel st nd md M = turn_values G ev fuel st nd md M) ∧
    (G.activeIsSelf st0 = true →
      minimaxSearch G ev st0 depth M0 = turnSearch G ev st0 depth M0) := by
  intro σ G ev fuel st nd md M st0 depth M0
  refine ⟨(mm_turn_eq G ev fuel st nd md M).1, (mm_turn_eq G ev fuel st nd md M).2, ?_⟩
  intro hact
  simp only [minimaxSearch, turnSearch, hact]
  refine mmGo_turnGo G ev depth st0 depth M0 ?_ _ _
  intro st'
  cases M0 with
  | true =>
    rw [if_pos rfl]
    exact (mm_turn_eq G ev depth st' 1 depth true).1 (by simp)
  | false =>
    rw [if_neg (by simp)]
    exact (mm_turn_eq G ev depth st' 1 depth false).2 (by simp)

/-- Witness for C6 (amended) at concrete inputs. -/
theorem C6_move_enumeration_amended_witness :
    ((1 % 2 = 1 ↔ true = true) ∧ (turnG.activeIsSelf 0 = true)) ∧
    (min_value turnG turnEv 1 1 1 1 true = turn_values turnG turnEv 1 1 1 1 true ∧
      minimaxSearch turnG turnEv 0 1 true = turnSearch turnG turnEv 0 1 true) :=
  ⟨⟨by decide, by decide⟩,
    (C6_move_enumeration_amended Nat turnG turnEv 1 1 1 1 true 0 1 true).1 (by decide),
    (C6_move_enumeration_amended Nat turnG turnEv 1 1 1 1 true 0 1 true).2.2 (by decide)⟩

/-! ### Search results are legal moves under normal operation (C1) -/

theorem sval_cases (r : SVal) : r = ⊥ ∨ r = ⊤ ∨ ∃ q : ℚ, r = qv q := by
  induction r using WithBot.recBotCoe with
  | bot => exact Or.inl rfl
  | coe x =>
    induction x using WithTop.recTopCoe with
    | top => exact Or.inr (Or.inl rfl)
    | coe q => exact Or.inr (Or.inr ⟨q, rfl⟩)

theorem min_valueGo_finite (G : Game σ) (child : σ → Option SVal) (st : σ) :
    ∀ (ms : List Move) (s : SVal),
    (∀ m ∈ ms, ∀ v, child (G.forecast st m) = some v → ∃ q, v = qv q) →
    s ≠ ⊥ → ∀ r, min_valueGo G child st ms s = some r →
    r ≠ ⊥ ∧ r ≤ s ∧ (ms ≠ [] → r < ⊤) := by
  intro ms
  induction ms with
  | nil =>
    intro s hch hs r h
    simp only [min_valueGo, Option.some.injEq] at h
    exact ⟨h ▸ hs, h ▸ le_refl s, fun hne => absurd rfl hne⟩
  | cons m ms ih =>
    intro s hch hs r h
    simp only [min_valueGo] at h
    cases hc : child (G.forecast st m) with
    | none => rw [hc] at h; exact absurd h (by simp)
    | some v =>
      rw [hc] at h
      obtain ⟨q, rfl⟩ := hch m (by simp) v hc
      have hs' : min s (qv q) ≠ ⊥ := by
        rcases min_choice s (qv q) with hm | hm <;> rw [hm]
        · exact hs
        · exact qv_ne_bot q
      obtain ⟨h1, h2, h3⟩ := ih (min s (qv q))
        (fun m' hm' v hv => hch m' (by simp [hm']) v hv) hs' r h
      refine ⟨h1, le_trans h2 (min_le_left _ _), fun _ => ?_⟩
      exact lt_of_le_of_lt (le_trans h2 (min_le_right _ _)) (qv_lt_top q)

theorem max_valueGo_finite (G : Game σ) (child : σ → Option SVal) (st : σ) :
    ∀ (ms : List Move) (s : SVal),
    (∀ m ∈ ms, ∀ v, child (G.forecast st m) = some v → ∃ q, v = qv q) →
    s ≠ ⊤ → ∀ r, max_valueGo G child st ms s = some r →
    r ≠ ⊤ ∧ s ≤ r ∧ (ms ≠ [] → ⊥ < r) := by
  intro ms
  induction ms with
  | nil =>
    intro s hch hs r h
    simp only [max_valueGo, Option.some.injEq] at h
    exact ⟨h ▸ hs, h ▸ le_refl s, fun hne => absurd rfl hne⟩
  | cons m ms ih =>
    intro s hch hs r h
    simp only [max_valueGo] at h
    cases hc : child (G.forecast st m) with
    | none => rw [hc] at h; exact absurd h (by simp)
    | some v =>
      rw [hc] at h
      obtain ⟨q, rfl⟩ := hch m (by simp) v hc
      have hs' : max s (qv q) ≠ ⊤ := by
        rcases max_choice s (qv q) with hm | hm <;> rw [hm]
        · exact hs
        · exact qv_ne_top q
      obtain ⟨h1, h2, h3⟩ := ih (max s (qv q))
        (fun m' hm' v hv => hch m' (by simp [hm']) v hv) hs' r h
      refine ⟨h1, le_trans (le_max_left _ _) h2, fun _ => ?_⟩
      exact lt_of_lt_of_le (bot_lt_qv q) (le_trans (le_max_right _ _) h2)

theorem mm_finite (G : Game σ) (ev : σ → ℚ) (hL : LawfulGame G) :
    ∀ (fuel : Nat) (st : σ) (nd md : Nat),
    (G.activeIsSelf st = false → ∀ v,
      min_value G ev fuel st nd md true = some v → ∃ q, v = qv q) ∧
    (G.activeIsSelf st = true → ∀ v,
      max_value G ev fuel st nd md true = some v → ∃ q, v = qv q) := by
  intro fuel
  induction fuel with
  | zero =>
    intro st nd md
    constructor
    · intro _ v hv; rw [min_value_zero] at hv; exact absurd hv (by simp)
    · intro _ v hv; rw [max_value_zero] at hv; exact absurd hv (by simp)
  | succ k ih =>
    intro st nd md
    constructor
    · intro hact v hv
      rw [min_value_succ] at hv
      by_cases hterm : nd = md ∨ G.isWinner st true ∨ G.isLoser st true
      · rw [if_pos hterm] at hv
        exact ⟨ev st, by simpa using hv.symm⟩
      · rw [if_neg hterm, if_pos rfl] at hv
        cases hmv : G.legalMoves st false with
        | nil =>
          exact absurd (Or.inr (Or.inl (hL.opp_stuck st hact hmv))) hterm
        | cons m ms =>
          rw [hmv] at hv
          have hch : ∀ m' ∈ m :: ms, ∀ w,
              max_value G ev k (G.forecast st m') (nd + 1) md true = some w →
              ∃ q, w = qv q := by
            intro m' _ w hw
            have hact' : G.activeIsSelf (G.forecast st m') = true := by
              rw [hL.alternate st m', hact]; rfl
            exact (ih (G.forecast st m') (nd + 1) md).2 hact' w hw
          obtain ⟨h1, _, h3⟩ := min_valueGo_finite G _ st (m :: ms) ⊤ hch
            (by simp) v hv
          rcases sval_cases v with h | h | h
          · exact absurd h h1
          · exact absurd h (by
              intro hc
              exact absurd (hc ▸ h3 (by simp)) (lt_irrefl ⊤))
          · exact h
    · intro hact v hv
      rw [max_value_succ] at hv
      by_cases hterm : nd = md ∨ G.isWinner st true ∨ G.isLoser st true
      · rw [if_pos hterm] at hv
        exact ⟨ev st, by simpa using hv.symm⟩
      · rw [if_neg hterm, if_pos rfl] at hv
        cases hmv : G.legalMoves st true with
        | nil =>
          exact absurd (Or.inr (Or.inr (hL.self_stuck st hact hmv))) hterm
        | cons m ms =>
          rw [hmv] at hv
          have hch : ∀ m' ∈ m :: ms, ∀ w,
              min_value G ev k (G.forecast st m') (nd + 1) md true = some w →
              ∃ q, w = qv q := by
            intro m' _ w hw
            have hact' : G.activeIsSelf (G.forecast st m') = false := by
              rw [hL.alternate st m', hact]; rfl
            exact (ih (G.forecast st m') (nd + 1) md).1 hact' w hw
          obtain ⟨h1, _, h3⟩ := max_valueGo_finite G _ st (m :: ms) ⊥ hch
            (by simp) v hv
          rcases sval_cases v with h | h | h
          · exact absurd h (by
              intro hc
              exact absurd (hc ▸ h3 (by simp)) (lt_irrefl ⊥))
          · exact absurd h h1
          · exact h

theorem min_value_abGo_finite (G : Game σ) (child : σ → SVal → Option SVal)
    (st : σ) :
    ∀ (ms : List Move) (s alpha beta : SVal),
    (∀ m ∈ ms, ∀ b v, child (G.forecast st m) b = some v → ∃ q, v = qv q) →
    s ≠ ⊥ → ∀ r, min_value_abGo G child st ms s alpha beta = some r →
    r ≠ ⊥ ∧ r ≤ s ∧ (ms ≠ [] → r < ⊤) := by
  intro ms
  induction ms with
  | nil =>
    intro s alpha beta hch hs r h
    simp only [min_value_abGo, Option.some.injEq] at h
    exact ⟨h ▸ hs, h ▸ le_refl s, fun hne => absurd rfl hne⟩
  | cons m ms ih =>
    intro s alpha beta hch hs r h
    simp only [min_value_abGo] at h
    cases hc : child (G.forecast st m) beta with
    | none => rw [hc] at h; exact absurd h (by simp)
    | some v =>
      rw [hc] at h
      obtain ⟨q, rfl⟩ := hch m (by simp) beta v hc
      have hs' : min s (qv q) ≠ ⊥ := by
        rcases min_choice s (qv q) with hm | hm <;> rw [hm]
        · exact hs
        · exact qv_ne_bot q
      have hle : min s (qv q) ≤ s := min_le_left _ _
      have hlt : min s (qv q) < ⊤ := lt_of_le_of_lt (min_le_right _ _) (qv_lt_top q)
      dsimp only at h
      split at h
      · simp only [Option.some.injEq] at h
        exact ⟨h ▸ hs', h ▸ hle, fun _ => h ▸ hlt⟩
      · obtain ⟨h1, h2, _⟩ := ih (min s (qv q)) alpha (min beta (min s (qv q)))
          (fun m' hm' b v hv => hch m' (by simp [hm']) b v hv) hs' r h
        exact ⟨h1, le_trans h2 hle, fun _ => lt_of_le_of_lt h2 hlt⟩

theorem max_value_abGo_finite (G : Game σ) (child : σ → SVal → Option SVal)
    (st : σ) :
    ∀ (ms : List Move) (s alpha beta : SVal),
    (∀ m ∈ ms, ∀ a v, child (G.forecast st m) a = some v → ∃ q, v = qv q) →
    s ≠ ⊤ → ∀ r, max_value_abGo G child st ms s alpha beta = some r →
    r ≠ ⊤ ∧ s ≤ r ∧ (ms ≠ [] → ⊥ < r) := by
  intro ms
  induction ms with
  | nil =>
    intro s alpha beta hch hs r h
    simp only [max_value_abGo, Option.some.injEq] at h
    exact ⟨h ▸ hs, h ▸ le_refl s, fun hne => absurd rfl hne⟩
  | cons m ms ih =>
    intro s alpha beta hch hs r h
    simp only [max_value_abGo] at h
    cases hc : child (G.forecast st m) alpha with
    | none => rw [hc] at h; exact absurd h (by simp)
    | some v =>
      rw [hc] at h
      obtain ⟨q, rfl⟩ := hch m (by simp) alpha v hc
      have hs' : max s (qv q) ≠ ⊤ := by
        rcases max_choice s (qv q) with hm | hm <;> rw [hm]
        · exact hs
        · exact qv_ne_top q
      have hle : s ≤ max s (qv q) := le_max_left _ _
      have hlt : ⊥ < max s (qv q) := lt_of_lt_of_le (bot_lt_qv q) (le_max_right _ _)
      dsimp only at h
      split at h
      · simp only [Option.some.injEq] at h
        exact ⟨h ▸ hs', h ▸ hle, fun _ => h ▸ hlt⟩
      · obtain ⟨h1, h2, _⟩ := ih (max s (qv q)) (max alpha (max s (qv q))) beta
          (fun m' hm' a v hv => hch m' (by simp [hm']) a v hv) hs' r h
        exact ⟨h1, le_trans hle h2, fun _ => lt_of_lt_of_le hlt h2⟩

theorem ab_finite (G : Game σ) (ev : σ → ℚ) (hL : LawfulGame G) :
    ∀ (fuel : Nat) (st : σ) (nd md : Nat) (alpha beta : SVal),
    (G.activeIsSelf st = false → ∀ v,
      min_value_ab G ev fuel st nd md alpha beta true = some v → ∃ q, v = qv q) ∧
    (G.activeIsSelf st = true → ∀ v,
      max_value_ab G ev fuel st nd md alpha beta true = some v → ∃ q, v = qv q) := by
  intro fuel
  induction fuel with
  | zero =>
    intro st nd md alpha beta
    constructor
    · intro _ v hv; rw [min_value_ab_zero] at hv; exact absurd hv (by simp)
    · intro _ v hv; rw [max_value_ab_zero] at hv; exact absurd hv (by simp)
  | succ k ih =>
    intro st nd md alpha beta
    constructor
    · intro hact v hv
      rw [min_value_ab_succ] at hv
      by_cases hterm : nd = md ∨ G.isWinner st true ∨ G.isLoser st true
      · rw [if_pos hterm] at hv
        exact ⟨ev st, by simpa using hv.symm⟩
      · rw [if_neg hterm, if_pos rfl] at hv
        cases hmv : G.legalMoves st false with
        | nil =>
          exact absurd (Or.inr (Or.inl (hL.opp_stuck st hact hmv))) hterm
        | cons m ms =>
          rw [hmv] at hv
          have hch : ∀ m' ∈ m :: ms, ∀ b w,
              max_value_ab G ev k (G.forecast st m') (nd + 1) md alpha b true =
                some w → ∃ q, w = qv q := by
            intro m' _ b w hw
            have hact' : G.activeIsSelf (G.forecast st m') = true := by
              rw [hL.alternate st m', hact]; rfl
            exact (ih (G.forecast st m') (nd + 1) md alpha b).2 hact' w hw
          obtain ⟨h1, _, h3⟩ := min_value_abGo_finite G _ st (m :: ms) ⊤
            alpha beta hch (by simp) v hv
          rcases sval_cases v with h | h | h
          · exact absurd h h1
          · exact absurd h (by
              intro hc
              exact absurd (hc ▸ h3 (by simp)) (lt_irrefl ⊤))
          · exact h
    · intro hact v hv
      rw [max_value_ab_succ] at hv
      by_cases hterm : nd = md ∨ G.isWinner st true ∨ G.isLoser st true
      · rw [if_pos hterm] at hv
        exact ⟨ev st, by simpa using hv.symm⟩
      · rw [if_neg hterm, if_pos rfl] at hv
        cases hmv : G.legalMoves st true with
        | nil =>
          exact absurd (Or.inr (Or.inr (hL.self_stuck st hact hmv))) hterm
        | cons m ms =>
          rw [hmv] at hv
          have hch : ∀ m' ∈ m :: ms, ∀ a w,
              min_value_ab G ev k (G.forecast st m') (nd + 1) md a beta true =
                some w → ∃ q, w = qv q := by
            intro m' _ a w hw
            have hact' : G.activeIsSelf (G.forecast st m') = false := by
              rw [hL.alternate st m', hact]; rfl
            exact (ih (G.forecast st m') (nd + 1) md a beta).1 hact' w hw
          obtain ⟨h1, _, h3⟩ := max_value_abGo_finite G _ st (m :: ms) ⊥
            alpha beta hch (by simp) v hv
          rcases sval_cases v with h | h | h
          · exact absurd h (by
              intro hc
              exact absurd (hc ▸ h3 (by simp)) (lt_irrefl ⊥))
          · exact absurd h h1
          · exact h

theorem minimaxGo_mem (G : Game σ) (ev : σ → ℚ) (fuel : Nat) (game : σ)
    (depth : Nat) (S : List Move) :
    ∀ (ms : List Move) (acc : SVal × Move),
    (∀ m ∈ ms, m ∈ S) →
    (∀ m ∈ ms, ∀ v, min_value G ev fuel (G.forecast game m) 1 depth true =
      some v → ∃ q, v = qv q) →
    (acc.2 ∈ S ∨ (acc.1 = ⊥ ∧ ms ≠ [])) →
    ∀ p, minimaxGo G ev fuel game depth true ms acc = some p → p.2 ∈ S := by
  intro ms
  induction ms with
  | nil =>
    intro acc _ _ hacc p h
    simp only [minimaxGo, Option.some.injEq] at h
    rcases hacc with h' | ⟨_, h'⟩
    · exact h ▸ h'
    · exact absurd rfl h'
  | cons m ms ih =>
    intro acc hsub hch hacc p h
    simp only [minimaxGo, ite_true] at h
    cases hc : min_value G ev fuel (G.forecast game m) 1 depth true with
    | none => rw [hc] at h; exact absurd h (by simp)
    | some v =>
      rw [hc] at h
      obtain ⟨q, rfl⟩ := hch m (by simp) v hc
      dsimp only at h
      have hacc' : (if acc.1 < qv q then (qv q, m) else acc).2 ∈ S := by
        split
        · exact hsub m (by simp)
        · rename_i hlt
          rcases hacc with h' | ⟨hbot, _⟩
          · exact h'
          · rw [hbot] at hlt
            exact absurd (bot_lt_qv q) hlt
      exact ih _ (fun m' hm' => hsub m' (by simp [hm']))
        (fun m' hm' v hv => hch m' (by simp [hm']) v hv) (Or.inl hacc') p h

theorem minimax_move_mem (G : Game σ) (ev : σ → ℚ) (hL : LawfulGame G)
    (tl th : ℚ) (game : σ) (depth : Nat)
    (hact : G.activeIsSelf game = true) :
    ∀ p, minimax G ev tl th game depth true = some p →
    p.2 ∈ G.legalMoves game true ∨ G.legalMoves game true = [] := by
  intro p h
  simp only [minimax] at h
  split at h
  · simp only [Option.some.injEq] at h
    cases hmv : G.legalMoves game true with
    | nil => exact Or.inr rfl
    | cons m ms =>
      rw [hmv] at h
      exact Or.inl (h ▸ (by simp [board_get_move, hmv]))
  · simp only [minimaxSearch, hact] at h
    cases hmv : G.legalMoves game true with
    | nil =>
      rw [hmv] at h
      simp only [minimaxGo, Option.some.injEq] at h
      exact Or.inr rfl
    | cons m ms =>
      rw [hmv] at h
      refine Or.inl (minimaxGo_mem G ev depth game depth (m :: ms) (m :: ms) _
        (fun m' hm' => hm') ?_ (Or.inr ⟨rfl, by simp⟩) p h)
      intro m' _ v hv
      have hact' : G.activeIsSelf (G.forecast game m') = false := by
        rw [hL.alternate game m', hact]; rfl
      exact (mm_finite G ev hL depth (G.forecast game m') 1 depth).1 hact' v hv

theorem alphabetaGo_mem (G : Game σ) (ev : σ → ℚ) (fuel : Nat) (game : σ)
    (depth : Nat) (S : List Move) :
    ∀ (ms : List Move) (acc : SVal × Move) (alpha beta : SVal),
    (∀ m ∈ ms, m ∈ S) →
    (∀ m ∈ ms, ∀ a b v,
      min_value_ab G ev fuel (G.forecast game m) 1 depth a b true = some v →
      ∃ q, v = qv q) →
    (acc.2 ∈ S ∨ (acc.1 = ⊥ ∧ ms ≠ [])) →
    ∀ p, alphabetaGo G ev fuel game depth true ms acc alpha beta = some p →
    p.2 ∈ S := by
  intro ms
  induction ms with
  | nil =>
    intro acc alpha beta _ _ hacc p h
    simp only [alphabetaGo, Option.some.injEq] at h
    rcases hacc with h' | ⟨_, h'⟩
    · exact h ▸ h'
    · exact absurd rfl h'
  | cons m ms ih =>
    intro acc alpha beta hsub hch hacc p h
    simp only [alphabetaGo, ite_true] at h
    cases hc : min_value_ab G ev fuel (G.forecast game m) 1 depth alpha beta true with
    | none => rw [hc] at h; exact absurd h (by simp)
    | some v =>
      rw [hc] at h
      obtain ⟨q, rfl⟩ := hch m (by simp) alpha beta v hc
      dsimp only at h
      set acc2 := if acc.1 < qv q then (qv q, m) else acc with hacc2
      have hacc' : acc2.2 ∈ S := by
        rw [hacc2]
        split
        · exact hsub m (by simp)
        · rename_i hlt
          rcases hacc with h' | ⟨hbot, _⟩
          · exact h'
          · rw [hbot] at hlt
            exact absurd (bot_lt_qv q) hlt
      split at h
      · simp only [Option.some.injEq] at h
        rw [← h]
        exact hacc'
      · exact ih _ _ _ (fun m' hm' => hsub m' (by simp [hm']))
          (fun m' hm' a b v hv => hch m' (by simp [hm']) a b v hv)
          (Or.inl hacc') p h

theorem alphabeta_move_mem (G : Game σ) (ev : σ → ℚ) (hL : LawfulGame G)
    (tl th : ℚ) (game : σ) (depth : Nat)
    (hact : G.activeIsSelf game = true) :
    ∀ p, alphabeta G ev tl th game depth ⊥ ⊤ true = some p →
    p.2 ∈ G.legalMoves game true ∨ G.legalMoves game true = [] := by
  intro p h
  simp only [alphabeta] at h
  split at h
  · simp only [Option.some.injEq] at h
    cases hmv : G.legalMoves game true with
    | nil => exact Or.inr rfl
    | cons m ms =>
      rw [hmv] at h
      exact Or.inl (h ▸ (by simp [board_get_move, hmv]))
  · simp only [alphabetaSearch] at h
    cases hmv : G.legalMoves game true with
    | nil =>
      rw [hmv] at h
      simp only [alphabetaGo, Option.some.injEq] at h
      exact Or.inr rfl
    | cons m ms =>
      rw [hmv] at h
      refine Or.inl (alphabetaGo_mem G ev depth game depth (m :: ms) (m :: ms) _
        ⊥ ⊤ (fun m' hm' => hm') ?_ (Or.inr ⟨by simp, by simp⟩) p h)
      intro m' _ a b v hv
      have hact' : G.activeIsSelf (G.forecast game m') = false := by
        rw [hL.alternate game m', hact]; rfl
      exact (ab_finite G ev hL depth (G.forecast game m') 1 depth a b).1 hact' v hv

theorem driverLoop_mem (G : Game σ) (ev : σ → ℚ) (clock : Nat → ℚ) (th : ℚ)
    (it mmFlag : Bool) (game : σ) (hL : LawfulGame G)
    (hact : G.activeIsSelf game = true) :
    ∀ (fuel d idx : Nat) (best : SVal × Move),
    (best.2 ∈ G.legalMoves game true ∨ G.legalMoves game true = []) →
    ∀ p, driverLoop G ev clock th it mmFlag game fuel d idx best = some p →
    p.2 ∈ G.legalMoves game true ∨ G.legalMoves game true = [] := by
  intro fuel
  induction fuel with
  | zero => intro d idx best _ p h; exact absurd h (by simp [driverLoop])
  | succ k ih =>
    intro d idx best hbest p h
    simp only [driverLoop] at h
    split at h
    · split at h
      · cases mmFlag with
        | true =>
          simp only [ite_true] at h
          cases hs : minimax G ev (clock (idx + 1)) th game (d + 1) true with
          | none => rw [hs] at h; exact absurd h (by simp)
          | some best' =>
            rw [hs] at h
            dsimp only at h
            exact ih (d + 1) (idx + 2) best'
              (minimax_move_mem G ev hL (clock (idx + 1)) th game (d + 1) hact
                best' hs) p h
        | false =>
          simp only [Bool.false_eq_true, ite_false] at h
          cases hs : alphabeta G ev (clock (idx + 1)) th game (d + 1) ⊥ ⊤ true with
          | none => rw [hs] at h; exact absurd h (by simp)
          | some best' =>
            rw [hs] at h
            dsimp only at h
            exact ih (d + 1) (idx + 2) best'
              (alphabeta_move_mem G ev hL (clock (idx + 1)) th game (d + 1) hact
                best' hs) p h
      · exact ih d (idx + 1) best hbest p h
    · simp only [Option.some.injEq] at h
      rw [← h]
      exact hbest

/-- C1: under normal operation — a lawful board, the agent as active player,
`legal_moves` equal to the agent's legal moves, and a recognized search
method — a `get_move` call that returns never returns Python's `None`; its
value is always an actual move (possibly the sentinel `(-1, -1)`). -/
theorem C1_get_move_returns_move : ∀ (σ : Type) (G : Game σ) (ev : σ → ℚ)
    (sd : Nat) (it : Bool) (method : String) (th : ℚ) (fuel : Nat) (game : σ)
    (legal : List Move) (clock : Nat → ℚ) (r : Option Move),
    LawfulGame G → G.activeIsSelf game = true →
    legal = G.legalMoves game true →
    (method = "minimax" ∨ method = "alphabeta") →
    get_move G ev sd it method th fuel game legal clock = .ret r →
    ∃ mv, r = some mv := by
  intro σ G ev sd it method th fuel game legal clock r hL hact hleg hmethod h
  subst hleg
  rcases hmethod with h1 | h1
  · cases hm : minimax G ev (clock 0) th game 1 true with
    | none => rw [h1] at h; simp [get_move, hm] at h
    | some best =>
      cases hd : driverLoop G ev clock th it true game fuel 1 1 best with
      | none => rw [h1] at h; simp [get_move, hm, hd] at h
      | some p =>
        obtain ⟨ps, pm⟩ := p
        rw [h1] at h
        simp only [get_move, if_pos rfl, hm, hd] at h
        have hmem := driverLoop_mem G ev clock th it true game hL hact fuel 1 1
          best (minimax_move_mem G ev hL (clock 0) th game 1 hact best hm)
          (ps, pm) hd
        have hr : r = get_moveReturn pm (G.legalMoves game true) := by
          simpa using h.symm
        rcases hmem with hmem | hmem
        · exact ⟨pm, by rw [hr]; simp [get_moveReturn, hmem]⟩
        · refine ⟨(-1, -1), ?_⟩
          rw [hr, hmem]
          simp [get_moveReturn]
  · cases hm : alphabeta G ev (clock 0) th game 1 ⊥ ⊤ true with
    | none => rw [h1] at h; simp [get_move, hm] at h
    | some best =>
      cases hd : driverLoop G ev clock th it false game fuel 1 1 best with
      | none => rw [h1] at h; simp [get_move, hm, hd] at h
      | some p =>
        obtain ⟨ps, pm⟩ := p
        rw [h1] at h
        simp only [get_move, if_true, hm, hd] at h
        have hmem := driverLoop_mem G ev clock th it false game hL hact fuel 1 1
          best (alphabeta_move_mem G ev hL (clock 0) th game 1 hact best hm)
          (ps, pm) hd
        have hr : r = get_moveReturn pm (G.legalMoves game true) := by
          simpa using h.symm
        rcases hmem with hmem | hmem
        · exact ⟨pm, by rw [hr]; simp [get_moveReturn, hmem]⟩
        · refine ⟨(-1, -1), ?_⟩
          rw [hr, hmem]
          simp [get_moveReturn]

/-- Witness for C1 at a concrete lawful board and terminating clock. -/
theorem C1_get_move_returns_move_witness :
    (LawfulGame w1G ∧ w1G.activeIsSelf 0 = true ∧
      get_move w1G zeroEv 3 true "minimax" 10 1 0 [(0, 1)] (fun _ => 0) =
        .ret (some (0, 1))) ∧
    ∃ mv, (some ((0 : Int), (1 : Int)) : Option Move) = some mv := by
  have hL : LawfulGame w1G := by
    constructor
    · intro st _ _; rfl
    · intro st _ _; rfl
    · intro st m
      show decide ((st + 1) % 2 = 0) = !decide (st % 2 = 0)
      rcases Nat.mod_two_eq_zero_or_one st with h | h <;>
        simp [Nat.add_mod, h]
  refine ⟨⟨hL, by decide, by decide⟩, ?_⟩
  exact C1_get_move_returns_move Nat w1G zeroEv 3 true "minimax" 10 1 0
    [(0, 1)] (fun _ => 0) (some (0, 1)) hL (by decide) (by decide)
    (Or.inl rfl) (by decide)

/-! ### Alpha-beta returns the minimax score at a maximizing root (C4) -/

theorem KMrel_self (alpha beta r : SVal) : KMrel alpha beta r r :=
  ⟨fun _ => le_refl r, fun _ _ => rfl, fun _ => le_refl r⟩

theorem min_valueGo_some (G : Game σ) (child : σ → Option SVal) (st : σ) :
    ∀ (ms : List Move) (s : SVal),
    (∀ m ∈ ms, (child (G.forecast st m)).isSome) →
    (min_valueGo G child st ms s).isSome := by
  intro ms
  induction ms with
  | nil => intro s _; simp [min_valueGo]
  | cons m ms ih =>
    intro s hch
    simp only [min_valueGo]
    cases hc : child (G.forecast st m) with
    | none =>
      have := hch m (by simp)
      rw [hc] at this
      simp at this
    | some v => exact ih _ (fun m' hm' => hch m' (by simp [hm']))

theorem max_valueGo_some (G : Game σ) (child : σ → Option SVal) (st : σ) :
    ∀ (ms : List Move) (s : SVal),
    (∀ m ∈ ms, (child (G.forecast st m)).isSome) →
    (max_valueGo G child st ms s).isSome := by
  intro ms
  induction ms with
  | nil => intro s _; simp [max_valueGo]
  | cons m ms ih =>
    intro s hch
    simp only [max_valueGo]
    cases hc : child (G.forecast st m) with
    | none =>
      have := hch m (by simp)
      rw [hc] at this
      simp at this
    | some v => exact ih _ (fun m' hm' => hch m' (by simp [hm']))

theorem mm_suff (G : Game σ) (ev : σ → ℚ) : ∀ (fuel : Nat) (st : σ)
    (nd md : Nat) (M : Bool), nd ≤ md → md - nd < fuel →
    (min_value G ev fuel st nd md M).isSome ∧
    (max_value G ev fuel st nd md M).isSome := by
  intro fuel
  induction fuel with
  | zero => intro st nd md M _ h; omega
  | succ k ih =>
    intro st nd md M hle hfuel
    constructor
    · rw [min_value_succ]
      split
      · simp
      · rename_i hterm
        have hnd : nd < md := by
          rcases Nat.lt_or_ge nd md with h | h
          · exact h
          · exact absurd (Or.inl (by omega)) hterm
        exact min_valueGo_some G _ st _ ⊤ (fun m _ =>
          (ih (G.forecast st m) (nd + 1) md M (by omega) (by omega)).2)
    · rw [max_value_succ]
      split
      · simp
      · rename_i hterm
        have hnd : nd < md := by
          rcases Nat.lt_or_ge nd md with h | h
          · exact h
          · exact absurd (Or.inl (by omega)) hterm
        exact max_valueGo_some G _ st _ ⊥ (fun m _ =>
          (ih (G.forecast st m) (nd + 1) md M (by omega) (by omega)).1)

theorem minimaxGo_some (G : Game σ) (ev : σ → ℚ) (fuel : Nat) (game : σ)
    (depth : Nat) :
    ∀ (ms : List Move) (acc : SVal × Move),
    (∀ m ∈ ms, (min_value G ev fuel (G.forecast game m) 1 depth true).isSome) →
    (minimaxGo G ev fuel game depth true ms acc).isSome := by
  intro ms
  induction ms with
  | nil => intro acc _; simp [minimaxGo]
  | cons m ms ih =>
    intro acc hch
    simp only [minimaxGo, ite_true]
    cases hc : min_value G ev fuel (G.forecast game m) 1 depth true with
    | none =>
      have := hch m (by simp)
      rw [hc] at this
      simp at this
    | some v => exact ih _ (fun m' hm' => hch m' (by simp [hm']))

theorem min_valueGo_le (G : Game σ) (child : σ → Option SVal) (st : σ) :
    ∀ (ms : List Move) (s w : SVal),
    min_valueGo G child st ms s = some w → w ≤ s := by
  intro ms
  induction ms with
  | nil =>
    intro s w h
    simp only [min_valueGo, Option.some.injEq] at h
    exact le_of_eq h.symm
  | cons m ms ih =>
    intro s w h
    simp only [min_valueGo] at h
    cases hc : child (G.forecast st m) with
    | none => rw [hc] at h; exact absurd h (by simp)
    | some v =>
      rw [hc] at h
      exact le_trans (ih _ _ h) (min_le_left _ _)

theorem max_valueGo_ge (G : Game σ) (child : σ → Option SVal) (st : σ) :
    ∀ (ms : List Move) (s w : SVal),
    max_valueGo G child st ms s = some w → s ≤ w := by
  intro ms
  induction ms with
  | nil =>
    intro s w h
    simp only [max_valueGo, Option.some.injEq] at h
    exact le_of_eq h
  | cons m ms ih =>
    intro s w h
    simp only [max_valueGo] at h
    cases hc : child (G.forecast st m) with
    | none => rw [hc] at h; exact absurd h (by simp)
    | some v =>
      rw [hc] at h
      exact le_trans (le_max_left _ _) (ih _ _ h)

theorem minimaxGo_top (G : Game σ) (ev : σ → ℚ) (fuel : Nat) (game : σ)
    (depth : Nat) :
    ∀ (ms : List Move) (mv : Move) (pm : SVal × Move),
    minimaxGo G ev fuel game depth true ms (⊤, mv) = some pm → pm = (⊤, mv) := by
  intro ms
  induction ms with
  | nil =>
    intro mv pm h
    simp only [minimaxGo, Option.some.injEq] at h
    exact h.symm
  | cons m ms ih =>
    intro mv pm h
    simp only [minimaxGo, ite_true] at h
    cases hc : min_value G ev fuel (G.forecast game m) 1 depth true with
    | none => rw [hc] at h; exact absurd h (by simp)
    | some v =>
      rw [hc] at h
      dsimp only at h
      rw [if_neg not_top_lt] at h
      exact ih mv pm h

theorem go_min_km (G : Game σ) (chM : σ → Option SVal)
    (chA : σ → SVal → Option SVal) (st : σ) (alpha beta : SVal)
    (hAB : alpha < beta)
    (hIH : ∀ st' b v, alpha < b → chM st' = some v →
      ∃ r, chA st' b = some r ∧ KMrel alpha b r v) :
    ∀ (ms : List Move) (s p : SVal), alpha < s → (s < beta → s = p) →
    (beta ≤ s → s ≤ p) →
    ∀ w, min_valueGo G chM st ms p = some w →
    ∃ r, min_value_abGo G chA st ms s alpha (min beta s) = some r ∧
      KMrel alpha beta r w := by
  intro ms
  induction ms with
  | nil =>
    intro s p hs hinv2 hinv3 w hw
    simp only [min_valueGo, Option.some.injEq] at hw
    subst hw
    refine ⟨s, rfl, ?_, ?_, ?_⟩
    · intro hsa
      exact ((lt_irrefl alpha) (lt_of_lt_of_le hs hsa)).elim
    · intro _ hsb
      exact hinv2 hsb
    · intro hbs
      exact hinv3 hbs
  | cons m ms ih =>
    intro s p hs hinv2 hinv3 w hw
    simp only [min_valueGo] at hw
    cases hc : chM (G.forecast st m) with
    | none => rw [hc] at hw; exact absurd hw (by simp)
    | some v =>
      rw [hc] at hw
      have hab' : alpha < min beta s := lt_min hAB hs
      obtain ⟨rv, hrv, hK1, hK2, hK3⟩ := hIH (G.forecast st m) (min beta s) v hab' hc
      simp only [min_value_abGo, hrv]
      by_cases hcut : min s rv ≤ alpha
      · rw [if_pos hcut]
        have hrvs : rv < s := by
          by_contra hge
          push_neg at hge
          rw [min_eq_left hge] at hcut
          exact (lt_irrefl alpha) (lt_of_lt_of_le hs hcut)
        have hmin : min s rv = rv := min_eq_right hrvs.le
        have hrva : rv ≤ alpha := hmin ▸ hcut
        have hvrv : v ≤ rv := hK1 hrva
        have hwle : w ≤ min p v := min_valueGo_le G chM st ms _ _ hw
        refine ⟨min s rv, rfl, ?_, ?_, ?_⟩
        · intro _
          calc w ≤ min p v := hwle
            _ ≤ v := min_le_right _ _
            _ ≤ rv := hvrv
            _ = min s rv := hmin.symm
        · intro hlt _
          exact ((lt_irrefl alpha) (lt_of_lt_of_le hlt hcut)).elim
        · intro hge
          exact ((lt_irrefl beta) (lt_of_le_of_lt (hge.trans hcut) hAB)).elim
      · rw [if_neg hcut]
        push_neg at hcut
        have harv : alpha < rv := (lt_min_iff.mp hcut).2
        have hwin : min (min beta s) (min s rv) = min beta (min s rv) := by
          rw [min_assoc, ← min_assoc s s rv, min_self]
        rw [hwin]
        have hinv2' : min s rv < beta → min s rv = min p v := by
          intro hsb
          rcases le_or_lt (min beta s) rv with hA | hB
          · have hrvv : rv ≤ v := hK3 hA
            rcases le_or_lt s rv with hA1 | hA2
            · have hseq : min s rv = s := min_eq_left hA1
              rw [hseq] at hsb ⊢
              have hp : s = p := hinv2 hsb
              have hsv : s ≤ v := by
                have hbs : min beta s = s := min_eq_right hsb.le
                exact le_trans (hbs ▸ hA) hrvv
              rw [← hp]
              exact (min_eq_left hsv).symm
            · have hseq : min s rv = rv := min_eq_right hA2.le
              have hbs : min beta s = beta := by
                rcases le_total beta s with h | h
                · exact min_eq_left h
                · rw [min_eq_right h] at hA
                  exact absurd hA (not_le.mpr hA2)
              rw [hseq] at hsb
              rw [hbs] at hA
              exact absurd hsb (not_lt.mpr hA)
          · have hveq : rv = v := hK2 harv hB
            have hrvb : rv < beta := (lt_min_iff.mp hB).1
            have hrvs2 : rv < s := (lt_min_iff.mp hB).2
            have hseq : min s rv = rv := min_eq_right hrvs2.le
            have hrvp : rv ≤ p := by
              rcases lt_or_le s beta with h | h
              · exact (hinv2 h) ▸ hrvs2.le
              · exact le_trans hrvs2.le (hinv3 h)
            rw [hseq, ← hveq]
            exact (min_eq_right hrvp).symm
        have hinv3' : beta ≤ min s rv → min s rv ≤ min p v := by
          intro hbs'
          have hbeta_s : beta ≤ s := (le_min_iff.mp hbs').1
          have hbeta_rv : beta ≤ rv := (le_min_iff.mp hbs').2
          have hsp : s ≤ p := hinv3 hbeta_s
          have hrvv : rv ≤ v := hK3 (le_trans (min_le_left _ _) hbeta_rv)
          exact le_min (le_trans (min_le_left _ _) hsp)
            (le_trans (min_le_right _ _) hrvv)
        exact ih (min s rv) (min p v) hcut hinv2' hinv3' w hw

theorem go_max_km (G : Game σ) (chM : σ → Option SVal)
    (chA : σ → SVal → Option SVal) (st : σ) (alpha beta : SVal)
    (hAB : alpha < beta)
    (hIH : ∀ st' a v, a < beta → chM st' = some v →
      ∃ r, chA st' a = some r ∧ KMrel a beta r v) :
    ∀ (ms : List Move) (s p : SVal), s < beta → (alpha < s → s = p) →
    (s ≤ alpha → p ≤ s) →
    ∀ w, max_valueGo G chM st ms p = some w →
    ∃ r, max_value_abGo G chA st ms s (max alpha s) beta = some r ∧
      KMrel alpha beta r w := by
  intro ms
  induction ms with
  | nil =>
    intro s p hs hinv2 hinv3 w hw
    simp only [max_valueGo, Option.some.injEq] at hw
    subst hw
    refine ⟨s, rfl, ?_, ?_, ?_⟩
    · intro hsa
      exact hinv3 hsa
    · intro has _
      exact hinv2 has
    · intro hbs
      exact ((lt_irrefl beta) (lt_of_le_of_lt hbs hs)).elim
  | cons m ms ih =>
    intro s p hs hinv2 hinv3 w hw
    simp only [max_valueGo] at hw
    cases hc : chM (G.forecast st m) with
    | none => rw [hc] at hw; exact absurd hw (by simp)
    | some v =>
      rw [hc] at hw
      have hab' : max alpha s < beta := max_lt hAB hs
      obtain ⟨rv, hrv, hK1, hK2, hK3⟩ := hIH (G.forecast st m) (max alpha s) v hab' hc
      simp only [max_value_abGo, hrv]
      by_cases hcut : beta ≤ max s rv
      · rw [if_pos hcut]
        have hrvs : s < rv := by
          by_contra hge
          push_neg at hge
          rw [max_eq_left hge] at hcut
          exact (lt_irrefl beta) (lt_of_le_of_lt hcut hs)
        have hmax : max s rv = rv := max_eq_right hrvs.le
        have hrvb : beta ≤ rv := hmax ▸ hcut
        have hrvv : rv ≤ v := hK3 hrvb
        have hwge : max p v ≤ w := max_valueGo_ge G chM st ms _ _ hw
        refine ⟨max s rv, rfl, ?_, ?_, ?_⟩
        · intro hra
          exact ((lt_irrefl alpha)
            (lt_of_lt_of_le (lt_of_lt_of_le hAB (hcut.trans hra)) (le_refl _))).elim
        · intro _ hrb
          exact ((lt_irrefl beta) (lt_of_le_of_lt hcut hrb)).elim
        · intro _
          calc max s rv = rv := hmax
            _ ≤ v := hrvv
            _ ≤ max p v := le_max_right _ _
            _ ≤ w := hwge
      · rw [if_neg hcut]
        push_neg at hcut
        have harv : rv < beta := (max_lt_iff.mp hcut).2
        have hwin : max (max alpha s) (max s rv) = max alpha (max s rv) := by
          rw [max_assoc, ← max_assoc s s rv, max_self]
        rw [hwin]
        have hinv2' : alpha < max s rv → max s rv = max p v := by
          intro has'
          rcases le_or_lt rv (max alpha s) with hA | hB
          · have hvrv : v ≤ rv := hK1 hA
            rcases le_or_lt rv s with hA1 | hA2
            · have hseq : max s rv = s := max_eq_left hA1
              rw [hseq] at has' ⊢
              have hp : s = p := hinv2 has'
              have hvs : v ≤ s := by
                have has : max alpha s = s := max_eq_right has'.le
                exact le_trans hvrv (has ▸ hA)
              rw [← hp]
              exact (max_eq_left hvs).symm
            · have hseq : max s rv = rv := max_eq_right hA2.le
              have has : max alpha s = alpha := by
                rcases le_total s alpha with h | h
                · exact max_eq_left h
                · rw [max_eq_right h] at hA
                  exact absurd hA (not_le.mpr hA2)
              rw [hseq] at has'
              rw [has] at hA
              exact absurd has' (not_lt.mpr hA)
          · have hveq : rv = v := hK2 hB harv
            have hsrv : s < rv := lt_of_le_of_lt (le_max_right alpha s) hB
            have hseq : max s rv = rv := max_eq_right hsrv.le
            have hprv : p ≤ rv := by
              rcases lt_or_le alpha s with h | h
              · exact (hinv2 h) ▸ hsrv.le
              · exact le_trans (hinv3 h) hsrv.le
            rw [hseq, ← hveq]
            exact (max_eq_right hprv).symm
        have hinv3' : max s rv ≤ alpha → max p v ≤ max s rv := by
          intro has'
          have hs_a : s ≤ alpha := (max_le_iff.mp has').1
          have hrv_a : rv ≤ alpha := (max_le_iff.mp has').2
          have hps : p ≤ s := hinv3 hs_a
          have hvrv : v ≤ rv := hK1 (le_trans hrv_a (le_max_left _ _))
          exact max_le (le_trans hps (le_max_left _ _))
            (le_trans hvrv (le_max_right _ _))
        exact ih (max s rv) (max p v) hcut hinv2' hinv3' w hw

theorem km_all (G : Game σ) (ev : σ → ℚ) : ∀ (fuel : Nat),
    (∀ (st : σ) (nd md : Nat) (M : Bool) (alpha beta v : SVal), alpha < beta →
      min_value G ev fuel st nd md M = some v →
      ∃ r, min_value_ab G ev fuel st nd md alpha beta M = some r ∧
        KMrel alpha beta r v) ∧
    (∀ (st : σ) (nd md : Nat) (M : Bool) (alpha beta v : SVal), alpha < beta →
      max_value G ev fuel st nd md M = some v →
      ∃ r, max_value_ab G ev fuel st nd md alpha beta M = some r ∧
        KMrel alpha beta r v) := by
  intro fuel
  induction fuel with
  | zero =>
    constructor
    · intro st nd md M alpha beta v _ hv
      rw [min_value_zero] at hv
      exact absurd hv (by simp)
    · intro st nd md M alpha beta v _ hv
      rw [max_value_zero] at hv
      exact absurd hv (by simp)
  | succ k ih =>
    constructor
    · intro st nd md M alpha beta v hAB hv
      rw [min_value_succ] at hv
      rw [min_value_ab_succ]
      by_cases hterm : nd = md ∨ G.isWinner st true ∨ G.isLoser st true
      · rw [if_pos hterm] at hv
        rw [if_pos hterm]
        simp only [Option.some.injEq] at hv
        exact ⟨qv (ev st), rfl, hv ▸ KMrel_self alpha beta (qv (ev st))⟩
      · rw [if_neg hterm] at hv
        rw [if_neg hterm]
        have hres := go_min_km G
          (fun st' => max_value G ev k st' (nd + 1) md M)
          (fun st' beta' => max_value_ab G ev k st' (nd + 1) md alpha beta' M)
          st alpha beta hAB
          (fun st' b v' hb hc => ih.2 st' (nd + 1) md M alpha b v' hb hc)
          (if M then G.legalMoves st false else G.legalMoves st true) ⊤ ⊤
          (lt_of_lt_of_le hAB le_top)
          (fun h => (not_top_lt h).elim)
          (fun _ => le_refl ⊤) v hv
        rw [min_eq_left le_top] at hres
        exact hres
    · intro st nd md M alpha beta v hAB hv
      rw [max_value_succ] at hv
      rw [max_value_ab_succ]
      by_cases hterm : nd = md ∨ G.isWinner st true ∨ G.isLoser st true
      · rw [if_pos hterm] at hv
        rw [if_pos hterm]
        simp only [Option.some.injEq] at hv
        exact ⟨qv (ev st), rfl, hv ▸ KMrel_self alpha beta (qv (ev st))⟩
      · rw [if_neg hterm] at hv
        rw [if_neg hterm]
        have hres := go_max_km G
          (fun st' => min_value G ev k st' (nd + 1) md M)
          (fun st' alpha' => min_value_ab G ev k st' (nd + 1) md alpha' beta M)
          st alpha beta hAB
          (fun st' a v' ha hc => ih.1 st' (nd + 1) md M a beta v' ha hc)
          (if M then G.legalMoves st true else G.legalMoves st false) ⊥ ⊥
          (lt_of_le_of_lt bot_le hAB)
          (fun h => (not_lt_bot h).elim)
          (fun _ => le_refl ⊥) v hv
        rw [max_eq_left bot_le] at hres
        exact hres

theorem minimaxGo_ab_km (G : Game σ) (ev : σ → ℚ) (fuel : Nat) (game : σ)
    (depth : Nat)
    (hIH : ∀ (st' : σ) (a v : SVal), a < ⊤ →
      min_value G ev fuel st' 1 depth true = some v →
      ∃ r, min_value_ab G ev fuel st' 1 depth a ⊤ true = some r ∧
        KMrel a ⊤ r v) :
    ∀ (ms : List Move) (b : SVal) (mv1 mv2 : Move) (pm : SVal × Move),
    b < ⊤ →
    minimaxGo G ev fuel game depth true ms (b, mv1) = some pm →
    ∃ pa, alphabetaGo G ev fuel game depth true ms (b, mv2) b ⊤ = some pa ∧
      pa.1 = pm.1 := by
  intro ms
  induction ms with
  | nil =>
    intro b mv1 mv2 pm _ h
    simp only [minimaxGo, Option.some.injEq] at h
    exact ⟨(b, mv2), rfl, by rw [← h]⟩
  | cons m ms ih =>
    intro b mv1 mv2 pm hb h
    simp only [minimaxGo, ite_true] at h
    cases hc : min_value G ev fuel (G.forecast game m) 1 depth true with
    | none => rw [hc] at h; exact absurd h (by simp)
    | some v =>
      rw [hc] at h
      dsimp only at h
      obtain ⟨rv, hrv, hK1, hK2, hK3⟩ := hIH (G.forecast game m) b v hb hc
      simp only [alphabetaGo, ite_true, hrv]
      rcases le_or_lt rv b with hcase | hcase
      · -- fail low: neither side updates
        have hvb : v ≤ b := le_trans (hK1 hcase) hcase
        rw [if_neg (not_lt.mpr hvb)] at h
        rw [if_neg (not_lt.mpr hcase)]
        dsimp only
        rw [if_neg (not_le.mpr hb), max_self]
        exact ih b mv1 mv2 pm hb h
      · rcases lt_or_le rv ⊤ with htop | htop
        · -- in window: exact value, both update
          have hveq : rv = v := hK2 hcase htop
          rw [← hveq] at h
          rw [if_pos hcase] at h
          rw [if_pos hcase]
          dsimp only
          rw [if_neg (not_le.mpr htop)]
          rw [max_eq_right hcase.le]
          exact ih rv m m pm htop h
        · -- rv = ⊤: the true child value is also ⊤; alphabeta cuts off
          have hrvt : rv = ⊤ := le_antisymm le_top htop
          have hvt : v = ⊤ := le_antisymm le_top (hrvt ▸ hK3 (le_of_eq hrvt.symm))
          rw [hvt] at h
          rw [if_pos hb] at h
          have hpm := minimaxGo_top G ev fuel game depth ms m pm h
          rw [if_pos hcase]
          dsimp only
          rw [if_pos (le_of_eq hrvt.symm)]
          exact ⟨(rv, m), rfl, by rw [hpm, hrvt]⟩

/-- C4 (amended): for a maximizing root on a state where the agent is the
active player (as in normal operation), `alphabeta` called with the full
window `alpha = -∞`, `beta = +∞` returns the same best score as `minimax`
at the same state and depth; for a minimizing root the equality fails (see
the counterexample: line 407 collapses beta to alpha). -/
theorem C4_alphabeta_minimax_score_amended : ∀ (σ : Type) (G : Game σ)
    (ev : σ → ℚ) (tl th : ℚ) (st : σ) (depth : Nat),
    th ≤ tl → G.activeIsSelf st = true → 1 ≤ depth →
    (alphabeta G ev tl th st depth ⊥ ⊤ true).map Prod.fst =
      (minimax G ev tl th st depth true).map Prod.fst := by
  intro σ G ev tl th st depth htl hact hdep
  have hnl : ¬ tl < th := not_lt.mpr htl
  simp only [minimax, alphabeta, if_neg hnl]
  simp only [minimaxSearch, alphabetaSearch, hact, ite_true]
  have hsome : (minimaxGo G ev depth st depth true (G.legalMoves st true)
      (⊥, (-1, -1))).isSome :=
    minimaxGo_some G ev depth st depth _ _ (fun m _ =>
      (mm_suff G ev depth (G.forecast st m) 1 depth true hdep (by omega)).1)
  obtain ⟨pm, hpm⟩ := Option.isSome_iff_exists.mp hsome
  obtain ⟨pa, hpa, hfst⟩ := minimaxGo_ab_km G ev depth st depth
    (fun st' a v ha hc => (km_all G ev depth).1 st' 1 depth true a ⊤ v ha hc)
    (G.legalMoves st true) ⊥ (-1, -1) (-1, -1) pm
    (lt_of_lt_of_le (bot_lt_qv 0) le_top) hpm
  rw [hpm, hpa]
  simp [hfst]

/-- Witness for C4 (amended) at a concrete input (`bugG` with a maximizing
root). -/
theorem C4_alphabeta_minimax_score_amended_witness :
    ((10 : ℚ) ≤ 1000 ∧ bugG.activeIsSelf 0 = true ∧ 1 ≤ 2) ∧
    (alphabeta bugG bugEv 1000 10 0 2 ⊥ ⊤ true).map Prod.fst =
      (minimax bugG bugEv 1000 10 0 2 true).map Prod.fst :=
  ⟨⟨by decide, by decide, by decide⟩,
    C4_alphabeta_minimax_score_amended Nat bugG bugEv 1000 10 0 2 (by decide)
      (by decide) (by decide)⟩
